import Mathlib

/-!
Verification of the three interactive sorting-quiz engines (bubble, insertion,
selection).  The JavaScript game classes are shallowly embedded: the mutable
`this.array` becomes an explicit `List Int` threaded through pure step
functions, the progress indices (`i`, `j`, `boundary`, `sortedIndex`) become
`Nat` fields of explicit state structures, and every learner-facing handler
(`handleAction`, `handleInsert`, `handleSelection`) becomes a pure function
from a state and a learner action to a new state plus an outcome mirroring the
success / error messages of the source.  JavaScript array reads `a[k]` are
embedded as `List.getD k 0`; the index-bound theorems below show that on
reachable states every such read is in range, so the default value is never
consulted there.
-/

/-- Order direction: the `sortOrder` field, `'asc'` or `'desc'`. -/
inductive OrderDir where
  | asc
  | desc
deriving DecidableEq, Repr

/-- Convergence direction: the `convergence` field, `'left'` or `'right'`. -/
inductive Conv where
  | left
  | right
deriving DecidableEq, Repr

/-- Embeds `SortGame.shouldPrecede(a, b)`: `a < b` under `'asc'`, `a > b`
under `'desc'`. -/
def shouldPrecede (o : OrderDir) (a b : Int) : Bool :=
  match o with
  | .asc => decide (a < b)
  | .desc => decide (a > b)

/-- Non-strict companion order of `shouldPrecede`: the total order the session
is sorting into.  `leOf o a b` holds exactly when `shouldPrecede o b a` is
false. -/
def leOf (o : OrderDir) (a b : Int) : Prop :=
  match o with
  | .asc => a ≤ b
  | .desc => b ≤ a

/-- Result of submitting one learner action to a handler, mirroring which of
the source's message branches ran.  `noop` is the silent early return taken
when no prompt is active. -/
inductive Outcome where
  | ok
  | noop
  | errNoSwapNeeded
  | errMustSwap
  | errWrongSlot (v : Int) (slot : Nat)
  | errNotTarget (picked target : Int)
deriving DecidableEq, Repr

/-- An outcome that reports a learner mistake (any branch among the error
messages, as opposed to acceptance or the silent guard return). -/
def Outcome.isErr : Outcome → Bool
  | .ok => false
  | .noop => false
  | _ => true

/-- Embeds the destructuring swap
`[arr[a], arr[b]] = [arr[b], arr[a]]` used by the bubble and selection
engines. -/
def swapPair (l : List Int) (a b : Nat) : List Int :=
  (l.set a (l.getD b 0)).set b (l.getD a 0)

/-- Generic fuel-indexed driver: repeatedly applies a step function until the
completion flag is set (or fuel runs out). -/
def runSteps {α : Type} (f : α → α) (done : α → Bool) : Nat → α → α
  | 0, s => s
  | fuel + 1, s => if done s then s else runSteps f done fuel (f s)

/-! ## Bubble engine (`BubbleSortGame`) -/

/-- State of `BubbleSortGame`: the array plus the pass counter `i`, the scan
cursor `j` and the completion flag. -/
structure BubbleState where
  array : List Int
  i : Nat
  j : Nat
  isComplete : Bool
deriving DecidableEq, Repr

/-- The active pair of indices `(idx1, idx2)` as computed at the top of
`updateState` / `handleAction`: `(j, j+1)` under right convergence and
`(j-1, j)` under left convergence. -/
def bubblePair (conv : Conv) (s : BubbleState) : Nat × Nat :=
  match conv with
  | .right => (s.j, s.j + 1)
  | .left => (s.j - 1, s.j)

/-- Embeds `BubbleSortGame.init`: `i = 0`, and `j` starts at `0` for right
convergence or at the last index for left convergence. -/
def bubbleInit (conv : Conv) (l : List Int) : BubbleState :=
  { array := l
    i := 0
    j := match conv with
      | .left => l.length - 1
      | .right => 0
    isComplete := false }

/-- Embeds `BubbleSortGame.nextStep`: advance the cursor, roll over a finished
pass, and set the completion flag when `i >= length - 1`. -/
def bubbleNextStep (conv : Conv) (s : BubbleState) : BubbleState :=
  let n := s.array.length
  match conv with
  | .right =>
    let p := if s.j + 1 ≥ n - 1 - s.i then (s.i + 1, 0) else (s.i, s.j + 1)
    { s with i := p.1, j := p.2, isComplete := decide (p.1 ≥ n - 1) }
  | .left =>
    let p := if s.j - 1 ≤ s.i then (s.i + 1, n - 1) else (s.i, s.j - 1)
    { s with i := p.1, j := p.2, isComplete := decide (p.1 ≥ n - 1) }

/-- The `shouldSwap` value computed in `BubbleSortGame.handleAction`: false on
equal values, otherwise the negation of `shouldPrecede(leftVal, rightVal)`. -/
def bubbleShouldSwap (o : OrderDir) (conv : Conv) (s : BubbleState) : Bool :=
  let leftVal := s.array.getD (bubblePair conv s).1 0
  let rightVal := s.array.getD (bubblePair conv s).2 0
  if leftVal = rightVal then false else !shouldPrecede o leftVal rightVal

/-- The learner's two buttons in the bubble game: `'swap'` and `'next'`
(no swap). -/
inductive BubbleAction where
  | swap
  | next
deriving DecidableEq, Repr

/-- Embeds `BubbleSortGame.handleAction`: guard on completion, validate the
chosen action against `shouldSwap`, and on success apply the swap (if any)
and run `nextStep`; on failure leave the state untouched and report the
corresponding error message. -/
def bubbleHandleAction (o : OrderDir) (conv : Conv) (s : BubbleState) (a : BubbleAction) :
    BubbleState × Outcome :=
  if s.isComplete then (s, .noop)
  else
    match a with
    | .swap =>
      if bubbleShouldSwap o conv s then
        (bubbleNextStep conv
          { s with array := swapPair s.array (bubblePair conv s).1 (bubblePair conv s).2 }, .ok)
      else (s, .errNoSwapNeeded)
    | .next =>
      if !bubbleShouldSwap o conv s then (bubbleNextStep conv s, .ok)
      else (s, .errMustSwap)

/-- The always-correct learner choice for the current bubble prompt. -/
def bubbleCorrectAction (o : OrderDir) (conv : Conv) (s : BubbleState) : BubbleAction :=
  if bubbleShouldSwap o conv s then .swap else .next

/-- One step of the bubble session driven by an always-correct learner. -/
def bubbleCorrectStep (o : OrderDir) (conv : Conv) (s : BubbleState) : BubbleState :=
  (bubbleHandleAction o conv s (bubbleCorrectAction o conv s)).1

/-- Fuel amply covering the number of comparisons of a bubble session. -/
def bubbleFuel (n : Nat) : Nat := (n + 2) * (n + 2)

/-- Final state of a bubble session over `l` driven to completion by an
always-correct learner. -/
def bubbleFinal (o : OrderDir) (conv : Conv) (l : List Int) : BubbleState :=
  runSteps (bubbleCorrectStep o conv) (fun s => s.isComplete) (bubbleFuel l.length)
    (bubbleInit conv l)

/-! ## Insertion engine (`InsertionSortGame`) -/

/-- State of `InsertionSortGame`: the array, the `boundary` of the settled
region, the in-flight pick (`currentVal`, `currentIndex`) if any, and the
completion flag. -/
structure InsState where
  array : List Int
  boundary : Nat
  picked : Option (Int × Nat)
  isComplete : Bool
deriving DecidableEq, Repr

/-- The completion test at the top of `InsertionSortGame.promptPick`:
left convergence completes when `boundary >= length - 1`, right convergence
when `boundary <= 0`. -/
def insCheckComplete (conv : Conv) (s : InsState) : InsState :=
  match conv with
  | .left => if s.boundary ≥ s.array.length - 1 then { s with isComplete := true } else s
  | .right => if s.boundary ≤ 0 then { s with isComplete := true } else s

/-- Embeds `InsertionSortGame.init` followed by the first `promptPick`
completion test: `boundary = 0` (left) or `length - 1` (right). -/
def insInit (conv : Conv) (l : List Int) : InsState :=
  insCheckComplete conv
    { array := l
      boundary := match conv with
        | .left => 0
        | .right => l.length - 1
      picked := none
      isComplete := false }

/-- The single legal pick target of `promptPick`: `boundary + 1` under left
convergence, `boundary - 1` under right convergence. -/
def insPickIndex (conv : Conv) (s : InsState) : Nat :=
  match conv with
  | .left => s.boundary + 1
  | .right => s.boundary - 1

/-- Embeds `InsertionSortGame.handlePick` on the armed card: records
`currentVal` and `currentIndex`.  No card is armed when the session is
complete or a pick is already in flight. -/
def insPick (conv : Conv) (s : InsState) : InsState :=
  if s.isComplete then s
  else
    match s.picked with
    | some _ => s
    | none =>
      { s with picked := some (s.array.getD (insPickIndex conv s) 0, insPickIndex conv s) }

/-- The `correctSlot` loop of `InsertionSortGame.handleInsert`: scan the
settled region in increasing index order and return the first index whose
element the picked value should precede; default to the slot one past the
region. -/
def insCorrectSlot (o : OrderDir) (conv : Conv) (arr : List Int) (boundary : Nat)
    (v : Int) : Nat :=
  match conv with
  | .left =>
    match (List.range' 0 (boundary + 1)).find? (fun k => shouldPrecede o v (arr.getD k 0)) with
    | some k => k
    | none => boundary + 1
  | .right =>
    match (List.range' boundary (arr.length - boundary)).find?
        (fun k => shouldPrecede o v (arr.getD k 0)) with
    | some k => k
    | none => arr.length

/-- Embeds `InsertionSortGame.handleInsert`: compare the proposed slot with
`correctSlot`; on success splice the picked element out of its original
position, splice it back in at the slot (shifted down by one when the slot
lies beyond the removal point), advance the boundary one step in the
convergence direction and re-run the `promptPick` completion test; on failure
leave the state untouched. -/
def insPlace (o : OrderDir) (conv : Conv) (s : InsState) (slotIndex : Nat) :
    InsState × Outcome :=
  match s.picked with
  | none => (s, .noop)
  | some (v, ci) =>
    if slotIndex = insCorrectSlot o conv s.array s.boundary v then
      let val := s.array.getD ci 0
      let arr1 := s.array.eraseIdx ci
      let insertAt := if slotIndex > ci then slotIndex - 1 else slotIndex
      let arr2 := arr1.insertIdx insertAt val
      let b := match conv with
        | .left => s.boundary + 1
        | .right => s.boundary - 1
      (insCheckComplete conv { s with array := arr2, boundary := b, picked := none }, .ok)
    else (s, .errWrongSlot v slotIndex)

/-- One step of the insertion session driven by an always-correct learner:
pick the single armed card, then place it at the correct slot. -/
def insCorrectStep (o : OrderDir) (conv : Conv) (s : InsState) : InsState :=
  let s1 := insPick conv s
  match s1.picked with
  | none => s1
  | some (v, _) => (insPlace o conv s1 (insCorrectSlot o conv s1.array s1.boundary v)).1

/-- Final state of an insertion session over `l` driven to completion by an
always-correct learner. -/
def insFinal (o : OrderDir) (conv : Conv) (l : List Int) : InsState :=
  runSteps (insCorrectStep o conv) (fun s => s.isComplete) (l.length + 1) (insInit conv l)

/-! ## Selection engine (`SelectionSortGame`) -/

/-- State of `SelectionSortGame`: the array, the `sortedIndex` boundary of the
settled region and the completion flag. -/
structure SelState where
  array : List Int
  sortedIndex : Nat
  isComplete : Bool
deriving DecidableEq, Repr

/-- The completion test at the top of `SelectionSortGame.promptFindTarget`. -/
def selCheckComplete (conv : Conv) (s : SelState) : SelState :=
  match conv with
  | .left => if s.sortedIndex ≥ s.array.length - 1 then { s with isComplete := true } else s
  | .right => if s.sortedIndex ≤ 0 then { s with isComplete := true } else s

/-- Embeds `SelectionSortGame.init` followed by the first `promptFindTarget`
completion test: `sortedIndex = 0` (left) or `length - 1` (right). -/
def selInit (conv : Conv) (l : List Int) : SelState :=
  selCheckComplete conv
    { array := l
      sortedIndex := match conv with
        | .left => 0
        | .right => l.length - 1
      isComplete := false }

/-- The clickable index range armed by `promptFindTarget`:
`[sortedIndex, length - 1]` under left convergence, `[0, sortedIndex]` under
right convergence. -/
def selEligible (conv : Conv) (s : SelState) (idx : Nat) : Prop :=
  match conv with
  | .left => s.sortedIndex ≤ idx ∧ idx < s.array.length
  | .right => idx ≤ s.sortedIndex

/-- The best-so-far scan loop of `SelectionSortGame.handleSelection`: fold the
given index list, replacing the running `(bestIdx, bestVal)` whenever the
update test fires on the scanned element and the best value. -/
def selScan (arr : List Int) (upd : Int → Int → Bool) (init : Nat × Int)
    (idxs : List Nat) : Nat × Int :=
  idxs.foldl (fun best k => if upd (arr.getD k 0) best.2 then (k, arr.getD k 0) else best) init

/-- The `(correctIdx, correctVal)` computation of `handleSelection`: under
left convergence, scan `[sortedIndex+1, length-1]` keeping the element that
should precede the best so far; under right convergence, scan
`[1, sortedIndex]` keeping the element the best so far should precede. -/
def selCorrect (o : OrderDir) (conv : Conv) (arr : List Int) (sortedIndex : Nat) : Nat × Int :=
  match conv with
  | .left =>
    selScan arr (fun e b => shouldPrecede o e b) (sortedIndex, arr.getD sortedIndex 0)
      (List.range' (sortedIndex + 1) (arr.length - (sortedIndex + 1)))
  | .right =>
    selScan arr (fun e b => shouldPrecede o b e) (0, arr.getD 0 0)
      (List.range' 1 sortedIndex)

/-- Embeds `SelectionSortGame.handleSelection`: accept when the clicked index
is the computed best index or (duplicate leniency) when the clicked value
equals the best value; on acceptance swap the clicked element with the one at
`sortedIndex`, advance `sortedIndex` one step in the convergence direction and
re-run the `promptFindTarget` completion test; otherwise reject without
mutation. -/
def selHandle (o : OrderDir) (conv : Conv) (s : SelState) (idx : Nat) :
    SelState × Outcome :=
  let pickedVal := s.array.getD idx 0
  let correctIdx := (selCorrect o conv s.array s.sortedIndex).1
  let correctVal := (selCorrect o conv s.array s.sortedIndex).2
  if idx = correctIdx ∨ pickedVal = correctVal then
    let arr2 := swapPair s.array s.sortedIndex idx
    let si := match conv with
      | .left => s.sortedIndex + 1
      | .right => s.sortedIndex - 1
    (selCheckComplete conv { s with array := arr2, sortedIndex := si }, .ok)
  else (s, .errNotTarget pickedVal correctVal)

/-- One step of the selection session driven by an always-correct learner:
click the computed best index. -/
def selCorrectStep (o : OrderDir) (conv : Conv) (s : SelState) : SelState :=
  (selHandle o conv s (selCorrect o conv s.array s.sortedIndex).1).1

/-- Final state of a selection session over `l` driven to completion by an
always-correct learner. -/
def selFinal (o : OrderDir) (conv : Conv) (l : List Int) : SelState :=
  runSteps (selCorrectStep o conv) (fun s => s.isComplete) (l.length + 1) (selInit conv l)

/-! ## Reachable states -/

/-- States of a bubble session reachable from `init` through arbitrary
learner button presses. -/
inductive BubbleReach (o : OrderDir) (conv : Conv) (l : List Int) : BubbleState → Prop where
  | init : BubbleReach o conv l (bubbleInit conv l)
  | step : ∀ s a, BubbleReach o conv l s →
      BubbleReach o conv l (bubbleHandleAction o conv s a).1

/-- States of an insertion session reachable from `init` through picking the
armed card and proposing arbitrary slots. -/
inductive InsReach (o : OrderDir) (conv : Conv) (l : List Int) : InsState → Prop where
  | init : InsReach o conv l (insInit conv l)
  | pick : ∀ s, InsReach o conv l s → InsReach o conv l (insPick conv s)
  | place : ∀ s slot, InsReach o conv l s → InsReach o conv l (insPlace o conv s slot).1

/-- States of a selection session reachable from `init` through clicking
arbitrary armed cards (only indices in the armed range are clickable, and
none is armed once the session is complete). -/
inductive SelReach (o : OrderDir) (conv : Conv) (l : List Int) : SelState → Prop where
  | init : SelReach o conv l (selInit conv l)
  | step : ∀ s idx, SelReach o conv l s → s.isComplete = false → selEligible conv s idx →
      SelReach o conv l (selHandle o conv s idx).1

/-- The postcondition of claim C1: every adjacent pair of the sequence is
ordered by `shouldPrecede` or consists of equal values. -/
def adjOrdered (o : OrderDir) (l : List Int) : Prop :=
  ∀ k, k + 1 < l.length →
    shouldPrecede o (l.getD k 0) (l.getD (k + 1) 0) = true ∨ l.getD k 0 = l.getD (k + 1) 0

/-! ## Order lemmas -/

/-- Each order direction induces a reflexive companion order. -/
theorem leOf_refl (o : OrderDir) (a : Int) : leOf o a a := by
  cases o <;> simp [leOf]

/-- The companion order is transitive. -/
theorem leOf_trans {o : OrderDir} {a b c : Int} (h1 : leOf o a b) (h2 : leOf o b c) :
    leOf o a c := by
  cases o <;> simp only [leOf] at * <;> omega

/-- The companion order is total. -/
theorem leOf_total (o : OrderDir) (a b : Int) : leOf o a b ∨ leOf o b a := by
  cases o <;> simp only [leOf] <;> omega

/-- The companion order is antisymmetric. -/
theorem leOf_antisymm {o : OrderDir} {a b : Int} (h1 : leOf o a b) (h2 : leOf o b a) :
    a = b := by
  cases o <;> simp only [leOf] at * <;> omega

instance instIsAntisymmLeOf (o : OrderDir) : IsAntisymm Int (leOf o) :=
  ⟨fun _ _ => leOf_antisymm⟩

instance instIsTransLeOf (o : OrderDir) : IsTrans Int (leOf o) :=
  ⟨fun _ _ _ => leOf_trans⟩

/-- Bridge between the boolean predicate of the code and the companion
order: `b` does not strictly precede `a` exactly when `a ≤ b` in the session
order. -/
theorem precede_false_iff {o : OrderDir} {a b : Int} :
    shouldPrecede o b a = false ↔ leOf o a b := by
  cases o <;> simp only [shouldPrecede, leOf, decide_eq_false_iff_not, Int.not_lt, gt_iff_lt]

/-- A non-strict inequality between distinct values is strict. -/
theorem precede_of_le_ne {o : OrderDir} {a b : Int} (h : leOf o a b) (hne : a ≠ b) :
    shouldPrecede o a b = true := by
  cases o <;> simp only [shouldPrecede, leOf, decide_eq_true_eq, gt_iff_lt] at * <;> omega

/-- Strict precedence implies the companion order. -/
theorem le_of_precede {o : OrderDir} {a b : Int} (h : shouldPrecede o a b = true) :
    leOf o a b := by
  cases o <;> simp only [shouldPrecede, leOf, decide_eq_true_eq, gt_iff_lt] at * <;> omega

/-! ## List access lemmas -/

/-- Reading in range with a default is plain indexing. -/
theorem getD_eq_getElem {l : List Int} {k : Nat} (h : k < l.length) : l.getD k 0 = l[k] := by
  simp [List.getD_eq_getElem?_getD, List.getElem?_eq_getElem h]

/-- Setting an entry to its own value changes nothing. -/
theorem set_getD_self {l : List Int} {i : Nat} (h : i < l.length) :
    l.set i (l.getD i 0) = l := by
  rw [getD_eq_getElem h]
  apply List.ext_getElem?
  intro k
  rcases eq_or_ne i k with rfl | hne
  · rw [List.getElem?_set_eq_of_lt _ h, List.getElem?_eq_getElem h]
  · rw [List.getElem?_set_ne hne]

/-- A swap preserves the length. -/
theorem swapPair_length (l : List Int) (a b : Nat) : (swapPair l a b).length = l.length := by
  simp [swapPair]

/-- A swap leaves every other position unchanged. -/
theorem getD_swapPair_other {l : List Int} {a b k : Nat} (hka : k ≠ a) (hkb : k ≠ b) :
    (swapPair l a b).getD k 0 = l.getD k 0 := by
  simp only [swapPair, List.getD_eq_getElem?_getD]
  rw [List.getElem?_set_ne (Ne.symm hkb), List.getElem?_set_ne (Ne.symm hka)]

/-- After a swap, position `b` holds the old value of position `a`. -/
theorem getD_swapPair_snd {l : List Int} {a b : Nat} (hb : b < l.length) :
    (swapPair l a b).getD b 0 = l.getD a 0 := by
  simp only [swapPair, List.getD_eq_getElem?_getD]
  rw [List.getElem?_set_eq_of_lt _ (by simpa using hb)]
  rfl

/-- After a swap between distinct positions, position `a` holds the old value
of position `b`. -/
theorem getD_swapPair_fst {l : List Int} {a b : Nat} (hab : a ≠ b) (ha : a < l.length) :
    (swapPair l a b).getD a 0 = l.getD b 0 := by
  simp only [swapPair, List.getD_eq_getElem?_getD]
  rw [List.getElem?_set_ne (Ne.symm hab), List.getElem?_set_eq_of_lt _ ha]
  rfl

/-- Swapping the same position twice is the identity. -/
theorem swapPair_self {l : List Int} {a : Nat} (ha : a < l.length) : swapPair l a a = l := by
  simp only [swapPair, List.set_set]
  exact set_getD_self ha

/-- The operands of a swap commute. -/
theorem swapPair_comm (l : List Int) {a b : Nat} (hab : a ≠ b) :
    swapPair l a b = swapPair l b a := by
  simp only [swapPair]
  exact List.set_comm _ _ l hab

/-- A list is its prefix, the indexed element, and the rest. -/
theorem take_cons_drop {l : List Int} {k : Nat} (h : k < l.length) :
    List.take k l ++ l.getD k 0 :: List.drop (k + 1) l = l := by
  rw [getD_eq_getElem h, ← List.set_eq_take_cons_drop _ h]
  apply List.ext_getElem?
  intro m
  rcases eq_or_ne k m with rfl | hne
  · rw [List.getElem?_set_eq_of_lt _ h, List.getElem?_eq_getElem h]
  · rw [List.getElem?_set_ne hne]

/-- Swapping two in-range positions permutes the list. -/
theorem swapPair_perm : ∀ (l : List Int) (a b : Nat), a < l.length → b < l.length →
    (swapPair l a b).Perm l := by
  have key : ∀ (l : List Int) (a b : Nat), a < b → a < l.length → b < l.length →
      (swapPair l a b).Perm l := by
    intro l
    induction l with
    | nil => intro a b _ ha _; exact absurd ha (by simp)
    | cons c t ih =>
      intro a b hab ha hb
      cases a with
      | zero =>
        cases b with
        | zero => omega
        | succ k =>
          have hk : k < t.length := by simpa using hb
          have hswap : swapPair (c :: t) 0 (k + 1) = t.getD k 0 :: t.set k c := by
            simp [swapPair]
          rw [hswap, List.set_eq_take_cons_drop _ hk]
          refine List.Perm.trans (List.Perm.cons _ List.perm_middle) ?_
          refine List.Perm.trans (List.Perm.swap _ _ _) ?_
          refine List.Perm.trans (List.Perm.cons _ List.perm_middle.symm) ?_
          rw [take_cons_drop hk]
      | succ j =>
        cases b with
        | zero => omega
        | succ k =>
          have hswap : swapPair (c :: t) (j + 1) (k + 1) = c :: swapPair t j k := by
            simp [swapPair]
          rw [hswap]
          exact List.Perm.cons _ (ih j k (by omega) (by simpa using ha) (by simpa using hb))
  intro l a b ha hb
  rcases Nat.lt_trichotomy a b with h | h | h
  · exact key l a b h ha hb
  · subst h; rw [swapPair_self ha]
  · rw [swapPair_comm l (by omega)]
    exact key l b a h hb ha

/-- Inserting at an in-range position is a permutation of consing. -/
theorem insertIdx_perm : ∀ (l : List Int) (k : Nat) (v : Int), k ≤ l.length →
    (l.insertIdx k v).Perm (v :: l) := by
  intro l
  induction l with
  | nil =>
    intro k v hk
    have hz : k = 0 := by simpa using hk
    subst hz
    simp
  | cons c t ih =>
    intro k v hk
    cases k with
    | zero => simp
    | succ k =>
      simp only [List.insertIdx_succ_cons]
      exact List.Perm.trans (List.Perm.cons _ (ih k v (by simpa using hk)))
        (List.Perm.swap _ _ _)

/-- Removing the entry at an in-range position, then consing it back on,
permutes the list. -/
theorem cons_eraseIdx_perm {l : List Int} {k : Nat} (h : k < l.length) :
    (l.getD k 0 :: l.eraseIdx k).Perm l := by
  rw [List.eraseIdx_eq_take_drop_succ]
  refine List.Perm.trans List.perm_middle.symm ?_
  rw [take_cons_drop h]

/-! ## Sortedness predicates over index ranges -/

/-- Every pair of positions in increasing order is in the companion order. -/
def fullySorted (o : OrderDir) (l : List Int) : Prop :=
  ∀ k1 k2, k1 ≤ k2 → k2 < l.length → leOf o (l.getD k1 0) (l.getD k2 0)

/-- The settled prefix `[0, m)` is internally sorted and below everything
after it. -/
def sortedBelow (o : OrderDir) (l : List Int) (m : Nat) : Prop :=
  ∀ k1 k2, k1 ≤ k2 → k1 < m → k2 < l.length → leOf o (l.getD k1 0) (l.getD k2 0)

/-- The settled suffix `[m, length)` is internally sorted and above everything
before it. -/
def sortedAbove (o : OrderDir) (l : List Int) (m : Nat) : Prop :=
  ∀ k1 k2, k1 ≤ k2 → m ≤ k2 → k2 < l.length → leOf o (l.getD k1 0) (l.getD k2 0)

/-- The region `[lo, hi)` is internally sorted. -/
def sortedRange (o : OrderDir) (l : List Int) (lo hi : Nat) : Prop :=
  ∀ k1 k2, lo ≤ k1 → k1 ≤ k2 → k2 < hi → k2 < l.length →
    leOf o (l.getD k1 0) (l.getD k2 0)

/-- A prefix settled up to the penultimate position sorts the whole list. -/
theorem fullySorted_of_sortedBelow {o : OrderDir} {l : List Int}
    (h : sortedBelow o l (l.length - 1)) : fullySorted o l := by
  intro k1 k2 hle hk2
  rcases Nat.eq_or_lt_of_le hle with rfl | hlt
  · exact leOf_refl o _
  · exact h k1 k2 hle (by omega) hk2

/-- A suffix settled from position 1 on sorts the whole list. -/
theorem fullySorted_of_sortedAbove {o : OrderDir} {l : List Int}
    (h : sortedAbove o l 1) : fullySorted o l := by
  intro k1 k2 hle hk2
  rcases Nat.eq_or_lt_of_le hle with rfl | hlt
  · exact leOf_refl o _
  · exact h k1 k2 hle (by omega) hk2

/-- A fully settled region sorts the whole list. -/
theorem fullySorted_of_sortedRange {o : OrderDir} {l : List Int}
    (h : sortedRange o l 0 l.length) : fullySorted o l := by
  intro k1 k2 hle hk2
  exact h k1 k2 (Nat.zero_le _) hle hk2 hk2

/-- A fully sorted list satisfies the adjacent-pairs postcondition of the
specification. -/
theorem adjOrdered_of_fullySorted {o : OrderDir} {l : List Int}
    (h : fullySorted o l) : adjOrdered o l := by
  intro k hk
  have hle := h k (k + 1) (by omega) hk
  rcases eq_or_ne (l.getD k 0) (l.getD (k + 1) 0) with he | hne
  · exact Or.inr he
  · exact Or.inl (precede_of_le_ne hle hne)

/-- A fully sorted list is `Sorted` for the companion order. -/
theorem sorted_of_fullySorted {o : OrderDir} {l : List Int}
    (h : fullySorted o l) : List.Sorted (leOf o) l := by
  rw [List.Sorted, List.pairwise_iff_getElem]
  intro k1 k2 h1 h2 hlt
  have := h k1 k2 (by omega) h2
  rwa [getD_eq_getElem h1, getD_eq_getElem h2] at this

/-! ## Generic driver lemma -/

/-- Fuel-indexed invariant argument: if every live step decreases a measure
and either keeps the invariant or finishes with the final property, then
enough fuel drives the session to completion with the final property. -/
theorem runSteps_reaches {α : Type} (f : α → α) (done : α → Bool) (Inv Final : α → Prop)
    (meas : α → Nat)
    (hstep : ∀ s, done s = false → Inv s →
      meas (f s) < meas s ∧
      ((done (f s) = false ∧ Inv (f s)) ∨ (done (f s) = true ∧ Final (f s)))) :
    ∀ fuel s, meas s < fuel →
      ((done s = false ∧ Inv s) ∨ (done s = true ∧ Final s)) →
      done (runSteps f done fuel s) = true ∧ Final (runSteps f done fuel s) := by
  intro fuel
  induction fuel with
  | zero => intro s h; omega
  | succ m ih =>
    intro s hm hs
    rcases hs with ⟨hd, hinv⟩ | ⟨hd, hfin⟩
    · rw [runSteps, hd]
      simp only [Bool.false_eq_true, if_false]
      have ⟨hdec, hnext⟩ := hstep s hd hinv
      exact ih (f s) (by omega) hnext
    · rw [runSteps, hd]
      simp only [if_true]
      exact ⟨hd, hfin⟩

/-! ## Bubble engine invariants -/

/-- What one validated compare-and-swap does to the array: the pair at
`(a, b)` ends up ordered, other positions are untouched, and the two new
values are the old two values. -/
structure CompareSwapFacts (o : OrderDir) (arr arr2 : List Int) (a b : Nat) : Prop where
  len : arr2.length = arr.length
  perm : arr2.Perm arr
  ord : leOf o (arr2.getD a 0) (arr2.getD b 0)
  other : ∀ k, k ≠ a → k ≠ b → arr2.getD k 0 = arr.getD k 0
  maxl : leOf o (arr.getD a 0) (arr2.getD b 0)
  maxr : leOf o (arr.getD b 0) (arr2.getD b 0)
  minl : leOf o (arr2.getD a 0) (arr.getD a 0)
  minr : leOf o (arr2.getD a 0) (arr.getD b 0)
  aorig : arr2.getD a 0 = arr.getD a 0 ∨ arr2.getD a 0 = arr.getD b 0
  borig : arr2.getD b 0 = arr.getD a 0 ∨ arr2.getD b 0 = arr.getD b 0

/-- The compare-and-swap of the bubble engine satisfies `CompareSwapFacts`
when the decision bit is the engine's `shouldSwap` value for the pair. -/
theorem compareSwapFacts (o : OrderDir) (arr : List Int) (a b : Nat) (sw : Bool)
    (hsw : sw = (if arr.getD a 0 = arr.getD b 0 then false
                 else !shouldPrecede o (arr.getD a 0) (arr.getD b 0)))
    (ha : a < arr.length) (hb : b < arr.length) (hab : a ≠ b) :
    CompareSwapFacts o arr (if sw then swapPair arr a b else arr) a b := by
  have noswap : leOf o (arr.getD a 0) (arr.getD b 0) → CompareSwapFacts o arr arr a b := by
    intro hle
    exact
      { len := rfl
        perm := List.Perm.refl arr
        ord := hle
        other := fun _ _ _ => rfl
        maxl := hle
        maxr := leOf_refl o _
        minl := leOf_refl o _
        minr := hle
        aorig := Or.inl rfl
        borig := Or.inr rfl }
  subst hsw
  by_cases he : arr.getD a 0 = arr.getD b 0
  · rw [if_pos he]
    simp only [Bool.false_eq_true, if_false]
    exact noswap (by rw [he]; exact leOf_refl o _)
  · rw [if_neg he]
    by_cases hp : shouldPrecede o (arr.getD a 0) (arr.getD b 0) = true
    · rw [hp]
      simp only [Bool.not_true, Bool.false_eq_true, if_false]
      exact noswap (le_of_precede hp)
    · have hp2 : shouldPrecede o (arr.getD a 0) (arr.getD b 0) = false := by
        simpa using hp
      rw [hp2]
      simp only [Bool.not_false, if_true]
      have hle : leOf o (arr.getD b 0) (arr.getD a 0) := precede_false_iff.mp hp2
      have hfst : (swapPair arr a b).getD a 0 = arr.getD b 0 := getD_swapPair_fst hab ha
      have hsnd : (swapPair arr a b).getD b 0 = arr.getD a 0 := getD_swapPair_snd hb
      exact
        { len := swapPair_length arr a b
          perm := swapPair_perm arr a b ha hb
          ord := by rw [hfst, hsnd]; exact hle
          other := fun k hka hkb => getD_swapPair_other hka hkb
          maxl := by rw [hsnd]; exact leOf_refl o _
          maxr := by rw [hsnd]; exact hle
          minl := by rw [hfst]; exact hle
          minr := by rw [hfst]; exact leOf_refl o _
          aorig := Or.inr hfst
          borig := Or.inl hsnd }

/-- An active correct step is the validated compare-and-swap followed by
`nextStep`. -/
theorem bubbleCorrectStep_eq {o : OrderDir} {conv : Conv} {s : BubbleState}
    (h : s.isComplete = false) :
    bubbleCorrectStep o conv s = bubbleNextStep conv { s with array :=
      (if bubbleShouldSwap o conv s then
        swapPair s.array (bubblePair conv s).1 (bubblePair conv s).2
      else s.array) } := by
  obtain ⟨arr, i, j, c⟩ := s
  replace h : c = false := h
  subst h
  unfold bubbleCorrectStep bubbleCorrectAction bubbleHandleAction
  by_cases hs : bubbleShouldSwap o conv ⟨arr, i, j, false⟩ <;> simp [hs]

/-- The decision bit of the engine, expressed on raw reads. -/
theorem bubbleShouldSwap_eq (o : OrderDir) (conv : Conv) (s : BubbleState) :
    bubbleShouldSwap o conv s =
      (if s.array.getD (bubblePair conv s).1 0 = s.array.getD (bubblePair conv s).2 0 then false
       else !shouldPrecede o (s.array.getD (bubblePair conv s).1 0)
         (s.array.getD (bubblePair conv s).2 0)) := rfl

/-- Run invariant of the right-convergence bubble session relative to the
starting list `l`: the settled suffix of length `i` is sorted and above the
rest, the cursor has bubbled a running maximum to position `j`, and the
indices are in their scanning ranges. -/
structure BInvR (o : OrderDir) (l : List Int) (s : BubbleState) : Prop where
  len : s.array.length = l.length
  perm : s.array.Perm l
  hcomp : s.isComplete = false
  hi : s.i + 2 ≤ l.length
  hj : s.j + s.i + 2 ≤ l.length
  hsorted : sortedAbove o s.array (l.length - s.i)
  hmax : ∀ k, k ≤ s.j → leOf o (s.array.getD k 0) (s.array.getD s.j 0)

/-- Run invariant of the left-convergence bubble session: the settled prefix
of length `i` is sorted and below the rest, and the cursor has bubbled a
running minimum to position `j`. -/
structure BInvL (o : OrderDir) (l : List Int) (s : BubbleState) : Prop where
  len : s.array.length = l.length
  perm : s.array.Perm l
  hcomp : s.isComplete = false
  hi : s.i + 2 ≤ l.length
  hjlo : s.i + 1 ≤ s.j
  hjhi : s.j + 1 ≤ l.length
  hsorted : sortedBelow o s.array s.i
  hmin : ∀ k, s.j ≤ k → k < l.length → leOf o (s.array.getD s.j 0) (s.array.getD k 0)

/-- Termination measure of the right-convergence bubble session. -/
def bubbleMeasR (n : Nat) (s : BubbleState) : Nat :=
  (n - 1 - s.i) * (n + 2) + (n - 1 - s.i - s.j)

/-- Termination measure of the left-convergence bubble session. -/
def bubbleMeasL (n : Nat) (s : BubbleState) : Nat :=
  (n - 1 - s.i) * (n + 2) + s.j

/-- The final property every driver run is shown to land in. -/
def FinalSorted (o : OrderDir) (l arr : List Int) : Prop :=
  fullySorted o arr ∧ arr.Perm l ∧ arr.length = l.length

/-- Unfolding of `nextStep` under right convergence. -/
theorem bubbleNextStep_right (s : BubbleState) :
    bubbleNextStep .right s =
      if s.j + 1 ≥ s.array.length - 1 - s.i then
        { s with
          i := s.i + 1
          j := 0
          isComplete := decide (s.i + 1 ≥ s.array.length - 1) }
      else
        { s with
          j := s.j + 1
          isComplete := decide (s.i ≥ s.array.length - 1) } := by
  unfold bubbleNextStep
  by_cases hc : s.j + 1 ≥ s.array.length - 1 - s.i <;> simp [hc]

/-- Unfolding of `nextStep` under left convergence. -/
theorem bubbleNextStep_left (s : BubbleState) :
    bubbleNextStep .left s =
      if s.j - 1 ≤ s.i then
        { s with
          i := s.i + 1
          j := s.array.length - 1
          isComplete := decide (s.i + 1 ≥ s.array.length - 1) }
      else
        { s with
          j := s.j - 1
          isComplete := decide (s.i ≥ s.array.length - 1) } := by
  unfold bubbleNextStep
  by_cases hc : s.j - 1 ≤ s.i <;> simp [hc]

/-- Arithmetic of the pass-end measure drop. -/
theorem measDec {D M c j2 : Nat} (h1 : 1 ≤ D) (hc : c < M) :
    (D - 1) * M + c < D * M + j2 := by
  have hsum : (D - 1) * M + M = D * M := by
    have hD : D - 1 + 1 = D := by omega
    calc (D - 1) * M + M = (D - 1 + 1) * M := by ring
      _ = D * M := by rw [hD]
  omega

/-- One always-correct step of an active right-convergence bubble session
decreases the measure and either re-establishes the invariant or completes
with a fully sorted permutation of the start list. -/
theorem bubbleR_step {o : OrderDir} {l : List Int} {s : BubbleState} (h : BInvR o l s) :
    bubbleMeasR l.length (bubbleCorrectStep o .right s) < bubbleMeasR l.length s ∧
    (((bubbleCorrectStep o .right s).isComplete = false ∧
        BInvR o l (bubbleCorrectStep o .right s)) ∨
     ((bubbleCorrectStep o .right s).isComplete = true ∧
        FinalSorted o l (bubbleCorrectStep o .right s).array)) := by
  obtain ⟨len, perm, hcomp, hi, hj, hsorted, hmax⟩ := h
  have ha : s.j < s.array.length := by omega
  have hb : s.j + 1 < s.array.length := by omega
  obtain ⟨arr2, harr2⟩ : ∃ arr2, arr2 =
      (if bubbleShouldSwap o .right s then swapPair s.array s.j (s.j + 1) else s.array) :=
    ⟨_, rfl⟩
  have facts : CompareSwapFacts o s.array arr2 s.j (s.j + 1) := by
    rw [harr2]
    exact compareSwapFacts o s.array s.j (s.j + 1) (bubbleShouldSwap o .right s)
      (bubbleShouldSwap_eq o .right s) ha hb (by omega)
  have hlen2 : arr2.length = l.length := by rw [facts.len, len]
  have hperm2 : arr2.Perm l := facts.perm.trans perm
  have hstep : bubbleCorrectStep o .right s = bubbleNextStep .right { s with array := arr2 } := by
    rw [bubbleCorrectStep_eq hcomp, harr2]
    simp only [bubblePair]
  have claimC : ∀ k, k ≤ s.j + 1 → leOf o (arr2.getD k 0) (arr2.getD (s.j + 1) 0) := by
    intro k hk
    rcases Nat.lt_or_ge k s.j with hlt | hge
    · rw [facts.other k (by omega) (by omega)]
      exact leOf_trans (hmax k (by omega)) facts.maxl
    · rcases Nat.eq_or_lt_of_le hge with heq | hlt2
      · subst heq
        exact facts.ord
      · have hk1 : k = s.j + 1 := by omega
        rw [hk1]
        exact leOf_refl o _
  have claimB : ∀ k1 k2, k1 ≤ k2 → l.length - s.i ≤ k2 → k2 < l.length →
      leOf o (arr2.getD k1 0) (arr2.getD k2 0) := by
    intro k1 k2 h12 hk2lo hk2hi
    have hne1 : k2 ≠ s.j := by omega
    have hne2 : k2 ≠ s.j + 1 := by omega
    rw [facts.other k2 hne1 hne2]
    rcases Nat.lt_or_ge k1 s.j with hlt | hge
    · rw [facts.other k1 (by omega) (by omega)]
      exact hsorted k1 k2 h12 (by omega) (by omega)
    rcases Nat.eq_or_lt_of_le hge with heq | hgt
    · have hs2 : leOf o (s.array.getD s.j 0) (s.array.getD k2 0) :=
        hsorted s.j k2 (by omega) (by omega) (by omega)
      subst heq
      exact leOf_trans facts.minl hs2
    rcases Nat.eq_or_lt_of_le hgt with heq2 | hgt2
    · subst heq2
      rcases facts.borig with hv | hv
      · rw [hv]
        exact hsorted s.j k2 (by omega) (by omega) (by omega)
      · rw [hv]
        exact hsorted (s.j + 1) k2 (by omega) (by omega) (by omega)
    · rw [facts.other k1 (by omega) (by omega)]
      exact hsorted k1 k2 h12 (by omega) (by omega)
  rw [hstep, bubbleNextStep_right]
  simp only [List.length_nil]
  by_cases hcond : s.j + 1 ≥ arr2.length - 1 - s.i
  · rw [if_pos (by simpa using hcond)]
    rw [hlen2] at hcond
    have hjeq : s.j + 1 = l.length - 1 - s.i := by omega
    have hsA : sortedAbove o arr2 (l.length - (s.i + 1)) := by
      intro k1 k2 h12 hk2lo hk2hi
      rw [hlen2] at hk2hi
      rcases Nat.lt_or_ge k2 (l.length - s.i) with hlo | hhi
      · have hk2j : k2 = s.j + 1 := by omega
        rw [hk2j]
        exact claimC k1 (by omega)
      · exact claimB k1 k2 h12 hhi hk2hi
    constructor
    · simp only [bubbleMeasR, hlen2]
      have hrw : l.length - 1 - (s.i + 1) = (l.length - 1 - s.i) - 1 := by omega
      rw [hrw]
      exact measDec (by omega) (by omega)
    · by_cases hfin : s.i + 1 ≥ l.length - 1
      · right
        have hdec : decide (s.i + 1 ≥ arr2.length - 1) = true := by
          rw [hlen2]; simpa using hfin
        refine ⟨by simpa using hdec, ?_, by simpa using hperm2, by simpa using hlen2⟩
        have h1 : l.length - (s.i + 1) = 1 := by omega
        rw [h1] at hsA
        simpa using fullySorted_of_sortedAbove hsA
      · left
        have hdec : decide (s.i + 1 ≥ arr2.length - 1) = false := by
          rw [hlen2]; simpa using hfin
        refine ⟨by simpa using hdec, ?_⟩
        exact
          { len := by show arr2.length = l.length; exact hlen2
            perm := by show arr2.Perm l; exact hperm2
            hcomp := by show decide (s.i + 1 ≥ arr2.length - 1) = false; exact hdec
            hi := by show s.i + 1 + 2 ≤ l.length; omega
            hj := by show 0 + (s.i + 1) + 2 ≤ l.length; omega
            hsorted := by show sortedAbove o arr2 (l.length - (s.i + 1)); exact hsA
            hmax := by
              intro k hk
              replace hk : k ≤ 0 := hk
              have hk0 : k = 0 := by omega
              show leOf o (arr2.getD k 0) (arr2.getD 0 0)
              rw [hk0]
              exact leOf_refl o _ }
  · rw [if_neg (by simpa using hcond)]
    rw [hlen2] at hcond
    have hdec : decide (s.i ≥ arr2.length - 1) = false := by
      rw [hlen2]
      have : ¬ (s.i ≥ l.length - 1) := by omega
      simpa using this
    constructor
    · simp only [bubbleMeasR, hlen2]
      generalize (l.length - 1 - s.i) * (l.length + 2) = P
      omega
    · left
      refine ⟨by simpa using hdec, ?_⟩
      exact
        { len := by show arr2.length = l.length; exact hlen2
          perm := by show arr2.Perm l; exact hperm2
          hcomp := by show decide (s.i ≥ arr2.length - 1) = false; exact hdec
          hi := by show s.i + 2 ≤ l.length; omega
          hj := by show s.j + 1 + s.i + 2 ≤ l.length; omega
          hsorted := by
            show sortedAbove o arr2 (l.length - s.i)
            intro k1 k2 h12 hk2lo hk2hi
            rw [hlen2] at hk2hi
            exact claimB k1 k2 h12 hk2lo hk2hi
          hmax := by
            intro k hk
            replace hk : k ≤ s.j + 1 := hk
            show leOf o (arr2.getD k 0) (arr2.getD (s.j + 1) 0)
            exact claimC k hk }

/-- One always-correct step of an active left-convergence bubble session
decreases the measure and either re-establishes the invariant or completes
with a fully sorted permutation of the start list. -/
theorem bubbleL_step {o : OrderDir} {l : List Int} {s : BubbleState} (h : BInvL o l s) :
    bubbleMeasL l.length (bubbleCorrectStep o .left s) < bubbleMeasL l.length s ∧
    (((bubbleCorrectStep o .left s).isComplete = false ∧
        BInvL o l (bubbleCorrectStep o .left s)) ∨
     ((bubbleCorrectStep o .left s).isComplete = true ∧
        FinalSorted o l (bubbleCorrectStep o .left s).array)) := by
  obtain ⟨len, perm, hcomp, hi, hjlo, hjhi, hsorted, hmin⟩ := h
  have ha : s.j - 1 < s.array.length := by omega
  have hb : s.j < s.array.length := by omega
  obtain ⟨arr2, harr2⟩ : ∃ arr2, arr2 =
      (if bubbleShouldSwap o .left s then swapPair s.array (s.j - 1) s.j else s.array) :=
    ⟨_, rfl⟩
  have facts : CompareSwapFacts o s.array arr2 (s.j - 1) s.j := by
    rw [harr2]
    exact compareSwapFacts o s.array (s.j - 1) s.j (bubbleShouldSwap o .left s)
      (bubbleShouldSwap_eq o .left s) ha hb (by omega)
  have hlen2 : arr2.length = l.length := by rw [facts.len, len]
  have hperm2 : arr2.Perm l := facts.perm.trans perm
  have hstep : bubbleCorrectStep o .left s = bubbleNextStep .left { s with array := arr2 } := by
    rw [bubbleCorrectStep_eq hcomp, harr2]
    simp only [bubblePair]
  have claimC : ∀ k, s.j - 1 ≤ k → k < l.length →
      leOf o (arr2.getD (s.j - 1) 0) (arr2.getD k 0) := by
    intro k hklo hkhi
    rcases Nat.lt_or_ge k s.j with hlt | hge
    · have hk1 : k = s.j - 1 := by omega
      rw [hk1]
      exact leOf_refl o _
    · rcases Nat.eq_or_lt_of_le hge with heq | hgt
      · rw [← heq]
        exact facts.ord
      · rw [facts.other k (by omega) (by omega)]
        exact leOf_trans facts.minr (hmin k (by omega) hkhi)
  have claimB : ∀ k1 k2, k1 ≤ k2 → k1 < s.i → k2 < l.length →
      leOf o (arr2.getD k1 0) (arr2.getD k2 0) := by
    intro k1 k2 h12 hk1 hk2
    rw [facts.other k1 (by omega) (by omega)]
    rcases Nat.lt_or_ge k2 (s.j - 1) with hlt | hge
    · rw [facts.other k2 (by omega) (by omega)]
      exact hsorted k1 k2 h12 hk1 (by omega)
    rcases Nat.eq_or_lt_of_le hge with heq | hgt
    · rw [← heq]
      rcases facts.aorig with hv | hv
      · rw [hv]
        exact hsorted k1 (s.j - 1) (by omega) hk1 (by omega)
      · rw [hv]
        exact hsorted k1 s.j (by omega) hk1 (by omega)
    rcases Nat.lt_or_ge k2 s.j with hlt2 | hge2
    · omega
    rcases Nat.eq_or_lt_of_le hge2 with heq2 | hgt2
    · rw [← heq2]
      rcases facts.borig with hv | hv
      · rw [hv]
        exact hsorted k1 (s.j - 1) (by omega) hk1 (by omega)
      · rw [hv]
        exact hsorted k1 s.j (by omega) hk1 (by omega)
    · rw [facts.other k2 (by omega) (by omega)]
      exact hsorted k1 k2 h12 hk1 (by omega)
  rw [hstep, bubbleNextStep_left]
  by_cases hcond : s.j - 1 ≤ s.i
  · rw [if_pos (by simpa using hcond)]
    have hjeq : s.j = s.i + 1 := by omega
    have hsB : sortedBelow o arr2 (s.i + 1) := by
      intro k1 k2 h12 hk1 hk2
      rw [hlen2] at hk2
      rcases Nat.lt_or_ge k1 s.i with hlo | hhi
      · exact claimB k1 k2 h12 hlo hk2
      · have hk1i : k1 = s.i := by omega
        have hji : s.j - 1 = s.i := by omega
        rw [hk1i, ← hji]
        exact claimC k2 (by omega) hk2
    constructor
    · simp only [bubbleMeasL, hlen2]
      have hrw : l.length - 1 - (s.i + 1) = (l.length - 1 - s.i) - 1 := by omega
      rw [hrw]
      exact measDec (by omega) (by omega)
    · by_cases hfin : s.i + 1 ≥ l.length - 1
      · right
        have hdec : decide (s.i + 1 ≥ arr2.length - 1) = true := by
          rw [hlen2]; simpa using hfin
        refine ⟨by simpa using hdec, ?_, by simpa using hperm2, by simpa using hlen2⟩
        have h1 : s.i + 1 = arr2.length - 1 := by omega
        rw [h1] at hsB
        simpa using fullySorted_of_sortedBelow hsB
      · left
        have hdec : decide (s.i + 1 ≥ arr2.length - 1) = false := by
          rw [hlen2]
          have : ¬ (s.i + 1 ≥ l.length - 1) := hfin
          simpa using this
        refine ⟨by simpa using hdec, ?_⟩
        exact
          { len := by show arr2.length = l.length; exact hlen2
            perm := by show arr2.Perm l; exact hperm2
            hcomp := by show decide (s.i + 1 ≥ arr2.length - 1) = false; exact hdec
            hi := by show s.i + 1 + 2 ≤ l.length; omega
            hjlo := by show s.i + 1 + 1 ≤ arr2.length - 1; omega
            hjhi := by show arr2.length - 1 + 1 ≤ l.length; omega
            hsorted := by show sortedBelow o arr2 (s.i + 1); exact hsB
            hmin := by
              intro k hklo hkhi
              replace hklo : arr2.length - 1 ≤ k := hklo
              replace hkhi : k < l.length := hkhi
              have hk : k = arr2.length - 1 := by omega
              show leOf o (arr2.getD (arr2.length - 1) 0) (arr2.getD k 0)
              rw [hk]
              exact leOf_refl o _ }
  · rw [if_neg (by simpa using hcond)]
    have hdec : decide (s.i ≥ arr2.length - 1) = false := by
      rw [hlen2]
      have : ¬ (s.i ≥ l.length - 1) := by omega
      simpa using this
    constructor
    · simp only [bubbleMeasL, hlen2]
      generalize (l.length - 1 - s.i) * (l.length + 2) = P
      omega
    · left
      refine ⟨by simpa using hdec, ?_⟩
      exact
        { len := by show arr2.length = l.length; exact hlen2
          perm := by show arr2.Perm l; exact hperm2
          hcomp := by show decide (s.i ≥ arr2.length - 1) = false; exact hdec
          hi := by show s.i + 2 ≤ l.length; omega
          hjlo := by show s.i + 1 ≤ s.j - 1; omega
          hjhi := by show s.j - 1 + 1 ≤ l.length; omega
          hsorted := by
            show sortedBelow o arr2 s.i
            intro k1 k2 h12 hk1 hk2
            rw [hlen2] at hk2
            exact claimB k1 k2 h12 hk1 hk2
          hmin := by
            intro k hklo hkhi
            replace hklo : s.j - 1 ≤ k := hklo
            show leOf o (arr2.getD (s.j - 1) 0) (arr2.getD k 0)
            exact claimC k hklo hkhi }

/-- The starting measure of a bubble session is below the session fuel. -/
theorem bubbleMeas_init_lt (n : Nat) : (n - 1) * (n + 2) + (n - 1) < bubbleFuel n := by
  unfold bubbleFuel
  have h1 : (n - 1) * (n + 2) ≤ (n + 1) * (n + 2) := Nat.mul_le_mul_right _ (by omega)
  have h2 : (n + 1) * (n + 2) + (n + 2) = (n + 2) * (n + 2) := by ring
  omega

/-- The initial state of a right-convergence bubble session satisfies the run
invariant whenever the sequence has at least two entries. -/
theorem bubbleInitInvR (o : OrderDir) (l : List Int) (hl : 2 ≤ l.length) :
    BInvR o l (bubbleInit .right l) :=
  { len := rfl
    perm := List.Perm.refl l
    hcomp := rfl
    hi := by show 0 + 2 ≤ l.length; omega
    hj := by show 0 + 0 + 2 ≤ l.length; omega
    hsorted := by
      intro k1 k2 h12 hk2lo hk2hi
      replace hk2lo : l.length - 0 ≤ k2 := hk2lo
      replace hk2hi : k2 < l.length := hk2hi
      omega
    hmax := by
      intro k hk
      replace hk : k ≤ 0 := hk
      have : k = 0 := by omega
      show leOf o (l.getD k 0) (l.getD 0 0)
      rw [this]
      exact leOf_refl o _ }

/-- The initial state of a left-convergence bubble session satisfies the run
invariant whenever the sequence has at least two entries. -/
theorem bubbleInitInvL (o : OrderDir) (l : List Int) (hl : 2 ≤ l.length) :
    BInvL o l (bubbleInit .left l) :=
  { len := rfl
    perm := List.Perm.refl l
    hcomp := rfl
    hi := by show 0 + 2 ≤ l.length; omega
    hjlo := by show 0 + 1 ≤ l.length - 1; omega
    hjhi := by show l.length - 1 + 1 ≤ l.length; omega
    hsorted := by
      intro k1 k2 h12 hk1 hk2
      replace hk1 : k1 < 0 := hk1
      omega
    hmin := by
      intro k hklo hkhi
      replace hklo : l.length - 1 ≤ k := hklo
      have : k = l.length - 1 := by omega
      show leOf o (l.getD (l.length - 1) 0) (l.getD k 0)
      rw [this]
      exact leOf_refl o _ }

/-- A bubble session of length at least two, driven by an always-correct
learner, completes with a fully sorted permutation of its starting list. -/
theorem bubbleFinal_spec (o : OrderDir) (conv : Conv) (l : List Int) (hl : 2 ≤ l.length) :
    (bubbleFinal o conv l).isComplete = true ∧ FinalSorted o l (bubbleFinal o conv l).array := by
  cases conv
  case left =>
    have run := runSteps_reaches (bubbleCorrectStep o .left) (fun s => s.isComplete)
      (BInvL o l) (fun s => FinalSorted o l s.array) (bubbleMeasL l.length)
      (fun s _ hinv => bubbleL_step hinv)
      (bubbleFuel l.length) (bubbleInit .left l)
      (by
        have hm : bubbleMeasL l.length (bubbleInit .left l) =
            (l.length - 1) * (l.length + 2) + (l.length - 1) := by
          simp [bubbleMeasL, bubbleInit]
        rw [hm]
        exact bubbleMeas_init_lt l.length)
      (Or.inl ⟨rfl, bubbleInitInvL o l hl⟩)
    exact ⟨run.1, run.2⟩
  case right =>
    have run := runSteps_reaches (bubbleCorrectStep o .right) (fun s => s.isComplete)
      (BInvR o l) (fun s => FinalSorted o l s.array) (bubbleMeasR l.length)
      (fun s _ hinv => bubbleR_step hinv)
      (bubbleFuel l.length) (bubbleInit .right l)
      (by
        have hm : bubbleMeasR l.length (bubbleInit .right l) =
            (l.length - 1) * (l.length + 2) + (l.length - 1) := by
          simp [bubbleMeasR, bubbleInit]
        rw [hm]
        exact bubbleMeas_init_lt l.length)
      (Or.inl ⟨rfl, bubbleInitInvR o l hl⟩)
    exact ⟨run.1, run.2⟩

/-! ## Insertion engine lemmas -/

/-- Characterization of a successful linear scan over a contiguous index
range: the hit is in range, satisfies the test, and is the first to do so. -/
theorem range'_find?_eq_some {p : Nat → Bool} : ∀ {st len k : Nat},
    (List.range' st len).find? p = some k →
    st ≤ k ∧ k < st + len ∧ p k = true ∧ ∀ j, st ≤ j → j < k → p j = false := by
  intro st len
  induction len generalizing st with
  | zero => intro k h; simp at h
  | succ m ih =>
    intro k h
    rw [List.range'_succ, List.find?_cons] at h
    rcases hp : p st with _ | _
    · rw [hp] at h
      simp only at h
      obtain ⟨h1, h2, h3, h4⟩ := ih h
      refine ⟨by omega, by omega, h3, ?_⟩
      intro j hj1 hj2
      rcases Nat.eq_or_lt_of_le hj1 with heq | hgt
      · rw [← heq]; exact hp
      · exact h4 j hgt hj2
    · rw [hp] at h
      simp only [Option.some.injEq] at h
      subst h
      exact ⟨Nat.le_refl _, by omega, hp, fun j hj1 hj2 => by omega⟩

/-- Characterization of a failed linear scan over a contiguous index range:
no index in the range satisfies the test. -/
theorem range'_find?_eq_none {p : Nat → Bool} : ∀ {st len : Nat},
    (List.range' st len).find? p = none →
    ∀ j, st ≤ j → j < st + len → p j = false := by
  intro st len
  induction len generalizing st with
  | zero => intro h j hj1 hj2; omega
  | succ m ih =>
    intro h j hj1 hj2
    rw [List.range'_succ, List.find?_cons] at h
    rcases hp : p st with _ | _
    · rw [hp] at h
      simp only at h
      rcases Nat.eq_or_lt_of_le hj1 with heq | hgt
      · rw [← heq]; exact hp
      · exact ih h j hgt (by omega)
    · rw [hp] at h
      simp at h

/-- The left-convergence `correctSlot` is the first index of the settled
region `[0, boundary]` that the picked value should precede, or the slot one
past the region. -/
theorem insCorrectSlot_left_char (o : OrderDir) (arr : List Int) (boundary : Nat) (v : Int) :
    (insCorrectSlot o .left arr boundary v ≤ boundary ∧
      shouldPrecede o v (arr.getD (insCorrectSlot o .left arr boundary v) 0) = true ∧
      ∀ j, j < insCorrectSlot o .left arr boundary v →
        shouldPrecede o v (arr.getD j 0) = false) ∨
    (insCorrectSlot o .left arr boundary v = boundary + 1 ∧
      ∀ j, j ≤ boundary → shouldPrecede o v (arr.getD j 0) = false) := by
  rcases hf : (List.range' 0 (boundary + 1)).find?
      (fun k => shouldPrecede o v (arr.getD k 0)) with _ | k
  · have hred : insCorrectSlot o .left arr boundary v = boundary + 1 := by
      unfold insCorrectSlot
      rw [hf]
    rw [hred]
    right
    refine ⟨rfl, fun j hj => ?_⟩
    exact range'_find?_eq_none hf j (Nat.zero_le _) (by omega)
  · have hred : insCorrectSlot o .left arr boundary v = k := by
      unfold insCorrectSlot
      rw [hf]
    rw [hred]
    left
    obtain ⟨h1, h2, h3, h4⟩ := range'_find?_eq_some hf
    exact ⟨by omega, h3, fun j hj => h4 j (Nat.zero_le _) hj⟩

/-- The right-convergence `correctSlot` is the first index of the settled
region `[boundary, length)` that the picked value should precede, or
`length`. -/
theorem insCorrectSlot_right_char (o : OrderDir) (arr : List Int) (boundary : Nat) (v : Int)
    (hb : boundary ≤ arr.length) :
    (boundary ≤ insCorrectSlot o .right arr boundary v ∧
      insCorrectSlot o .right arr boundary v < arr.length ∧
      shouldPrecede o v (arr.getD (insCorrectSlot o .right arr boundary v) 0) = true ∧
      ∀ j, boundary ≤ j → j < insCorrectSlot o .right arr boundary v →
        shouldPrecede o v (arr.getD j 0) = false) ∨
    (insCorrectSlot o .right arr boundary v = arr.length ∧
      ∀ j, boundary ≤ j → j < arr.length → shouldPrecede o v (arr.getD j 0) = false) := by
  rcases hf : (List.range' boundary (arr.length - boundary)).find?
      (fun k => shouldPrecede o v (arr.getD k 0)) with _ | k
  · have hred : insCorrectSlot o .right arr boundary v = arr.length := by
      unfold insCorrectSlot
      rw [hf]
    rw [hred]
    right
    refine ⟨rfl, fun j hj1 hj2 => ?_⟩
    exact range'_find?_eq_none hf j hj1 (by omega)
  · have hred : insCorrectSlot o .right arr boundary v = k := by
      unfold insCorrectSlot
      rw [hf]
    rw [hred]
    left
    obtain ⟨h1, h2, h3, h4⟩ := range'_find?_eq_some hf
    exact ⟨h1, by omega, h3, h4⟩

/-- Read with default through `eraseIdx`. -/
theorem getD_eraseIdx {l : List Int} {ci k : Nat} (hci : ci < l.length)
    (hk : k < l.length - 1) :
    (l.eraseIdx ci).getD k 0 = if k < ci then l.getD k 0 else l.getD (k + 1) 0 := by
  have hlen : (l.eraseIdx ci).length = l.length - 1 := by
    rw [List.length_eraseIdx, if_pos hci]
  have hk2 : k < (l.eraseIdx ci).length := by omega
  rw [getD_eq_getElem hk2, List.getElem_eraseIdx]
  by_cases hc : k < ci
  · rw [dif_pos hc, if_pos hc, getD_eq_getElem (by omega)]
  · rw [dif_neg hc, if_neg hc, getD_eq_getElem (by omega)]

/-- Read with default through `insertIdx`. -/
theorem getD_insertIdx {l : List Int} {p k : Nat} {v : Int} (hp : p ≤ l.length)
    (hk : k < l.length + 1) :
    (l.insertIdx p v).getD k 0 =
      if k < p then l.getD k 0 else if k = p then v else l.getD (k - 1) 0 := by
  have hlen : (l.insertIdx p v).length = l.length + 1 := List.length_insertIdx p l hp
  by_cases h1 : k < p
  · rw [if_pos h1, getD_eq_getElem (by omega), getD_eq_getElem (by omega),
      List.getElem_insertIdx_of_lt l v p k h1 (by omega)]
  · rw [if_neg h1]
    by_cases h2 : k = p
    · subst h2
      rw [if_pos rfl, getD_eq_getElem (by omega), List.getElem_insertIdx_self l v k hp]
    · rw [if_neg h2]
      have hke : p + (k - p - 1) + 1 = k := by omega
      conv_lhs => rw [← hke]
      rw [getD_eq_getElem (show p + (k - p - 1) + 1 < (l.insertIdx p v).length by omega),
        List.getElem_insertIdx_add_succ l v p (k - p - 1) (by omega),
        ← getD_eq_getElem (show p + (k - p - 1) < l.length by omega)]
      rw [show p + (k - p - 1) = k - 1 from by omega]

/-- Unfolding of the `promptPick` completion test, left convergence. -/
theorem insCheckComplete_left (s : InsState) :
    insCheckComplete .left s =
      if s.boundary ≥ s.array.length - 1 then { s with isComplete := true } else s := rfl

/-- Unfolding of the `promptPick` completion test, right convergence. -/
theorem insCheckComplete_right (s : InsState) :
    insCheckComplete .right s =
      if s.boundary ≤ 0 then { s with isComplete := true } else s := rfl

/-- Run invariant of the left-convergence insertion session: the settled
region `[0, boundary]` is internally sorted, no pick is in flight, and the
session is active. -/
structure IInvL (o : OrderDir) (l : List Int) (s : InsState) : Prop where
  len : s.array.length = l.length
  perm : s.array.Perm l
  hcomp : s.isComplete = false
  hpick : s.picked = none
  hb : s.boundary + 2 ≤ l.length
  hsorted : sortedRange o s.array 0 (s.boundary + 1)

/-- Run invariant of the right-convergence insertion session: the settled
region `[boundary, length)` is internally sorted, no pick is in flight, and
the session is active. -/
structure IInvR (o : OrderDir) (l : List Int) (s : InsState) : Prop where
  len : s.array.length = l.length
  perm : s.array.Perm l
  hcomp : s.isComplete = false
  hpick : s.picked = none
  hb1 : 1 ≤ s.boundary
  hb2 : s.boundary + 1 ≤ l.length
  hsorted : sortedRange o s.array s.boundary l.length

/-- Termination measure of the left-convergence insertion session. -/
def insMeasL (n : Nat) (s : InsState) : Nat := n - s.boundary

/-- Termination measure of the right-convergence insertion session. -/
def insMeasR (s : InsState) : Nat := s.boundary

/-- An active left-convergence correct step picks the boundary-adjacent card
and reinserts its value at the correct slot, then advances the boundary and
re-runs the completion test.  The correct slot never lies beyond the pick, so
no removal-shift correction applies. -/
theorem insCorrectStep_left_eq {o : OrderDir} {s : InsState} (hc : s.isComplete = false)
    (hp : s.picked = none)
    (hsl : insCorrectSlot o .left s.array s.boundary (s.array.getD (s.boundary + 1) 0) ≤
      s.boundary + 1) :
    insCorrectStep o .left s =
      insCheckComplete .left
        { s with
          array := (s.array.eraseIdx (s.boundary + 1)).insertIdx
            (insCorrectSlot o .left s.array s.boundary (s.array.getD (s.boundary + 1) 0))
            (s.array.getD (s.boundary + 1) 0)
          boundary := s.boundary + 1
          picked := none } := by
  obtain ⟨arr, b, p, c⟩ := s
  replace hc : c = false := hc
  replace hp : p = none := hp
  subst hc
  subst hp
  replace hsl : ¬ (insCorrectSlot o .left arr b (arr.getD (b + 1) 0) > b + 1) := by
    replace hsl : insCorrectSlot o .left arr b (arr.getD (b + 1) 0) ≤ b + 1 := hsl
    omega
  simp only [List.getD_eq_getElem?_getD] at hsl
  unfold insCorrectStep insPick insPickIndex insPlace
  simp [hsl]

/-- One always-correct step of an active left-convergence insertion session
decreases the measure and either re-establishes the invariant or completes
with a fully sorted permutation of the start list. -/
theorem insL_step {o : OrderDir} {l : List Int} {s : InsState} (h : IInvL o l s) :
    insMeasL l.length (insCorrectStep o .left s) < insMeasL l.length s ∧
    (((insCorrectStep o .left s).isComplete = false ∧ IInvL o l (insCorrectStep o .left s)) ∨
     ((insCorrectStep o .left s).isComplete = true ∧
       FinalSorted o l (insCorrectStep o .left s).array)) := by
  obtain ⟨len, perm, hcomp, hpick, hb, hsorted⟩ := h
  have hchar := insCorrectSlot_left_char o s.array s.boundary (s.array.getD (s.boundary + 1) 0)
  have hsl : insCorrectSlot o .left s.array s.boundary (s.array.getD (s.boundary + 1) 0) ≤
      s.boundary + 1 := by
    rcases hchar with ⟨h1, _, _⟩ | ⟨h1, _⟩ <;> omega
  have hstep := insCorrectStep_left_eq hcomp hpick hsl
  obtain ⟨slot, hslot⟩ : ∃ t, t =
      insCorrectSlot o .left s.array s.boundary (s.array.getD (s.boundary + 1) 0) := ⟨_, rfl⟩
  rw [← hslot] at hstep hchar hsl
  obtain ⟨v, hv⟩ : ∃ t, t = s.array.getD (s.boundary + 1) 0 := ⟨_, rfl⟩
  rw [← hv] at hstep hchar
  obtain ⟨arr2, harr2⟩ : ∃ t, t = (s.array.eraseIdx (s.boundary + 1)).insertIdx slot v :=
    ⟨_, rfl⟩
  rw [← harr2] at hstep
  have hci : s.boundary + 1 < s.array.length := by omega
  have hlen1 : (s.array.eraseIdx (s.boundary + 1)).length = s.array.length - 1 := by
    rw [List.length_eraseIdx, if_pos hci]
  have hlen2 : arr2.length = l.length := by
    rw [harr2, List.length_insertIdx _ _ (by rw [hlen1]; omega), hlen1]
    omega
  have hperm2 : arr2.Perm l := by
    rw [harr2, hv]
    refine List.Perm.trans (insertIdx_perm _ _ _ (by rw [hlen1]; omega)) ?_
    exact (cons_eraseIdx_perm hci).trans perm
  have hget : ∀ k, k < l.length → arr2.getD k 0 =
      (if k < slot then s.array.getD k 0
       else if k = slot then v
       else if k ≤ s.boundary + 1 then s.array.getD (k - 1) 0
       else s.array.getD k 0) := by
    intro k hk
    rw [harr2, getD_insertIdx (by rw [hlen1]; omega) (by rw [hlen1]; omega)]
    by_cases h1 : k < slot
    · rw [if_pos h1, if_pos h1, getD_eraseIdx hci (by omega), if_pos (by omega)]
    · rw [if_neg h1, if_neg h1]
      by_cases h2 : k = slot
      · rw [if_pos h2, if_pos h2]
      · rw [if_neg h2, if_neg h2, getD_eraseIdx hci (by omega)]
        by_cases h3 : k ≤ s.boundary + 1
        · rw [if_pos (by omega), if_pos h3]
        · rw [if_neg (by omega), if_neg h3]
          rw [show k - 1 + 1 = k from by omega]
  have hlev : ∀ j, j < slot → leOf o (s.array.getD j 0) v := by
    intro j hj
    rcases hchar with ⟨_, _, hfirst⟩ | ⟨heq, hall⟩
    · exact precede_false_iff.mp (hfirst j hj)
    · exact precede_false_iff.mp (hall j (by omega))
  have hvle : ∀ j, slot ≤ j → j ≤ s.boundary → leOf o v (s.array.getD j 0) := by
    intro j hj1 hj2
    rcases hchar with ⟨hle, hpre, _⟩ | ⟨heq, _⟩
    · rcases Nat.eq_or_lt_of_le hj1 with heq2 | hgt
      · rw [← heq2]
        exact le_of_precede hpre
      · exact leOf_trans (le_of_precede hpre)
          (hsorted slot j (Nat.zero_le _) (by omega) (by omega) (by omega))
    · omega
  have hsR : sortedRange o arr2 0 (s.boundary + 2) := by
    intro k1 k2 _ h12 hk2 hk2len
    have hk2n : k2 < l.length := by omega
    have hk1n : k1 < l.length := by omega
    rw [hget k1 hk1n, hget k2 hk2n]
    by_cases a1 : k1 < slot
    · rw [if_pos a1]
      by_cases a2 : k2 < slot
      · rw [if_pos a2]
        exact hsorted k1 k2 (Nat.zero_le _) h12 (by omega) (by omega)
      · rw [if_neg a2]
        by_cases a3 : k2 = slot
        · rw [if_pos a3]
          exact hlev k1 a1
        · rw [if_neg a3, if_pos (by omega)]
          exact hsorted k1 (k2 - 1) (Nat.zero_le _) (by omega) (by omega) (by omega)
    · rw [if_neg a1]
      by_cases a3 : k1 = slot
      · rw [if_pos a3]
        by_cases a2 : k2 < slot
        · omega
        · rw [if_neg a2]
          by_cases a4 : k2 = slot
          · rw [if_pos a4]
            exact leOf_refl o _
          · rw [if_neg a4, if_pos (by omega)]
            exact hvle (k2 - 1) (by omega) (by omega)
      · rw [if_neg a3, if_pos (by omega)]
        by_cases a2 : k2 < slot
        · omega
        · rw [if_neg a2]
          by_cases a4 : k2 = slot
          · omega
          · rw [if_neg a4, if_pos (by omega)]
            exact hsorted (k1 - 1) (k2 - 1) (Nat.zero_le _) (by omega) (by omega) (by omega)
  rw [hstep, insCheckComplete_left]
  by_cases hfin : s.boundary + 1 ≥ l.length - 1
  · rw [if_pos (by show s.boundary + 1 ≥ arr2.length - 1; rw [hlen2]; exact hfin)]
    refine ⟨?_, Or.inr ⟨rfl, ?_, by show arr2.Perm l; exact hperm2,
      by show arr2.length = l.length; exact hlen2⟩⟩
    · show l.length - (s.boundary + 1) < l.length - s.boundary
      omega
    · show fullySorted o arr2
      have heq : s.boundary + 2 = arr2.length := by omega
      rw [heq] at hsR
      exact fullySorted_of_sortedRange (by
        intro k1 k2 hlo h12 hk2 hk2l
        exact hsR k1 k2 hlo h12 hk2 hk2l)
  · rw [if_neg (by show ¬ (s.boundary + 1 ≥ arr2.length - 1); rw [hlen2]; exact hfin)]
    refine ⟨?_, Or.inl ⟨by show s.isComplete = false; exact hcomp, ?_⟩⟩
    · show l.length - (s.boundary + 1) < l.length - s.boundary
      omega
    · exact
        { len := by show arr2.length = l.length; exact hlen2
          perm := by show arr2.Perm l; exact hperm2
          hcomp := by show s.isComplete = false; exact hcomp
          hpick := rfl
          hb := by show s.boundary + 1 + 2 ≤ l.length; omega
          hsorted := by
            show sortedRange o arr2 0 (s.boundary + 1 + 1)
            intro k1 k2 hlo h12 hk2 hk2l
            exact hsR k1 k2 hlo h12 (by omega) hk2l }

/-- An active right-convergence correct step picks the boundary-adjacent card
and reinserts its value one slot below the correct slot (the removal happened
below it), then retreats the boundary and re-runs the completion test. -/
theorem insCorrectStep_right_eq {o : OrderDir} {s : InsState} (hc : s.isComplete = false)
    (hp : s.picked = none)
    (hsl : s.boundary - 1 < insCorrectSlot o .right s.array s.boundary
      (s.array.getD (s.boundary - 1) 0)) :
    insCorrectStep o .right s =
      insCheckComplete .right
        { s with
          array := (s.array.eraseIdx (s.boundary - 1)).insertIdx
            (insCorrectSlot o .right s.array s.boundary (s.array.getD (s.boundary - 1) 0) - 1)
            (s.array.getD (s.boundary - 1) 0)
          boundary := s.boundary - 1
          picked := none } := by
  obtain ⟨arr, b, p, c⟩ := s
  replace hc : c = false := hc
  replace hp : p = none := hp
  subst hc
  subst hp
  replace hsl : b - 1 < insCorrectSlot o .right arr b (arr.getD (b - 1) 0) := hsl
  simp only [List.getD_eq_getElem?_getD] at hsl
  unfold insCorrectStep insPick insPickIndex insPlace
  simp [hsl]

/-- One always-correct step of an active right-convergence insertion session
decreases the measure and either re-establishes the invariant or completes
with a fully sorted permutation of the start list. -/
theorem insR_step {o : OrderDir} {l : List Int} {s : InsState} (h : IInvR o l s) :
    insMeasR (insCorrectStep o .right s) < insMeasR s ∧
    (((insCorrectStep o .right s).isComplete = false ∧ IInvR o l (insCorrectStep o .right s)) ∨
     ((insCorrectStep o .right s).isComplete = true ∧
       FinalSorted o l (insCorrectStep o .right s).array)) := by
  obtain ⟨len, perm, hcomp, hpick, hb1, hb2, hsorted⟩ := h
  have hchar := insCorrectSlot_right_char o s.array s.boundary
    (s.array.getD (s.boundary - 1) 0) (by omega)
  have hslb : s.boundary ≤ insCorrectSlot o .right s.array s.boundary
      (s.array.getD (s.boundary - 1) 0) := by
    rcases hchar with ⟨h1, _, _, _⟩ | ⟨h1, _⟩ <;> omega
  have hsln : insCorrectSlot o .right s.array s.boundary
      (s.array.getD (s.boundary - 1) 0) ≤ l.length := by
    rcases hchar with ⟨_, h1, _, _⟩ | ⟨h1, _⟩ <;> omega
  have hstep := insCorrectStep_right_eq (o := o) hcomp hpick (by omega)
  obtain ⟨slot, hslot⟩ : ∃ t, t =
      insCorrectSlot o .right s.array s.boundary (s.array.getD (s.boundary - 1) 0) := ⟨_, rfl⟩
  rw [← hslot] at hstep hchar hslb hsln
  obtain ⟨v, hv⟩ : ∃ t, t = s.array.getD (s.boundary - 1) 0 := ⟨_, rfl⟩
  rw [← hv] at hstep hchar
  obtain ⟨arr2, harr2⟩ : ∃ t, t = (s.array.eraseIdx (s.boundary - 1)).insertIdx (slot - 1) v :=
    ⟨_, rfl⟩
  rw [← harr2] at hstep
  have hci : s.boundary - 1 < s.array.length := by omega
  have hlen1 : (s.array.eraseIdx (s.boundary - 1)).length = s.array.length - 1 := by
    rw [List.length_eraseIdx, if_pos hci]
  have hlen2 : arr2.length = l.length := by
    rw [harr2, List.length_insertIdx _ _ (by rw [hlen1]; omega), hlen1]
    omega
  have hperm2 : arr2.Perm l := by
    rw [harr2, hv]
    refine List.Perm.trans (insertIdx_perm _ _ _ (by rw [hlen1]; omega)) ?_
    exact (cons_eraseIdx_perm hci).trans perm
  have hget : ∀ k, k < l.length → arr2.getD k 0 =
      (if k < s.boundary - 1 then s.array.getD k 0
       else if k < slot - 1 then s.array.getD (k + 1) 0
       else if k = slot - 1 then v
       else s.array.getD k 0) := by
    intro k hk
    rw [harr2, getD_insertIdx (by rw [hlen1]; omega) (by rw [hlen1]; omega)]
    by_cases h1 : k < slot - 1
    · simp only [if_pos h1]
      rw [getD_eraseIdx hci (by omega)]
    · simp only [if_neg h1]
      by_cases h2 : k = slot - 1
      · simp only [if_pos h2, if_neg (show ¬ (k < s.boundary - 1) from by omega)]
      · simp only [if_neg h2, if_neg (show ¬ (k < s.boundary - 1) from by omega)]
        rw [getD_eraseIdx hci (by omega), if_neg (by omega)]
        rw [show k - 1 + 1 = k from by omega]
  have hlev : ∀ j, s.boundary ≤ j → j < slot → leOf o (s.array.getD j 0) v := by
    intro j hj1 hj2
    rcases hchar with ⟨_, _, _, hfirst⟩ | ⟨heq, hall⟩
    · exact precede_false_iff.mp (hfirst j hj1 hj2)
    · exact precede_false_iff.mp (hall j hj1 (by omega))
  have hvle : ∀ j, slot ≤ j → j < l.length → leOf o v (s.array.getD j 0) := by
    intro j hj1 hj2
    rcases hchar with ⟨hlo, hhi, hpre, _⟩ | ⟨heq, _⟩
    · rcases Nat.eq_or_lt_of_le hj1 with heq2 | hgt
      · rw [← heq2]
        exact le_of_precede hpre
      · exact leOf_trans (le_of_precede hpre)
          (hsorted slot j hlo (by omega) (by omega) (by omega))
    · omega
  have hsR : sortedRange o arr2 (s.boundary - 1) l.length := by
    intro k1 k2 hlo h12 hk2 hk2len
    have hk1n : k1 < l.length := by omega
    rw [hget k1 hk1n, hget k2 hk2]
    rw [if_neg (show ¬ (k1 < s.boundary - 1) from by omega),
      if_neg (show ¬ (k2 < s.boundary - 1) from by omega)]
    by_cases a1 : k1 < slot - 1
    · rw [if_pos a1]
      by_cases a2 : k2 < slot - 1
      · rw [if_pos a2]
        exact hsorted (k1 + 1) (k2 + 1) (by omega) (by omega) (by omega) (by omega)
      · rw [if_neg a2]
        by_cases a3 : k2 = slot - 1
        · rw [if_pos a3]
          exact hlev (k1 + 1) (by omega) (by omega)
        · rw [if_neg a3]
          exact hsorted (k1 + 1) k2 (by omega) (by omega) (by omega) (by omega)
    · rw [if_neg a1]
      by_cases a3 : k1 = slot - 1
      · rw [if_pos a3]
        by_cases a2 : k2 < slot - 1
        · omega
        · rw [if_neg a2]
          by_cases a4 : k2 = slot - 1
          · rw [if_pos a4]
            exact leOf_refl o _
          · rw [if_neg a4]
            exact hvle k2 (by omega) (by omega)
      · rw [if_neg a3]
        by_cases a2 : k2 < slot - 1
        · omega
        · rw [if_neg a2]
          by_cases a4 : k2 = slot - 1
          · omega
          · rw [if_neg a4]
            exact hsorted k1 k2 (by omega) h12 (by omega) (by omega)
  rw [hstep, insCheckComplete_right]
  by_cases hfin : s.boundary - 1 ≤ 0
  · rw [if_pos (by show s.boundary - 1 ≤ 0; exact hfin)]
    refine ⟨?_, Or.inr ⟨rfl, ?_, by show arr2.Perm l; exact hperm2,
      by show arr2.length = l.length; exact hlen2⟩⟩
    · show s.boundary - 1 < s.boundary
      omega
    · show fullySorted o arr2
      have heq : s.boundary - 1 = 0 := by omega
      rw [heq] at hsR
      refine fullySorted_of_sortedRange ?_
      intro k1 k2 hlo h12 hk2 hk2l
      exact hsR k1 k2 hlo h12 (by omega) hk2l
  · rw [if_neg (by show ¬ (s.boundary - 1 ≤ 0); exact hfin)]
    refine ⟨?_, Or.inl ⟨by show s.isComplete = false; exact hcomp, ?_⟩⟩
    · show s.boundary - 1 < s.boundary
      omega
    · exact
        { len := by show arr2.length = l.length; exact hlen2
          perm := by show arr2.Perm l; exact hperm2
          hcomp := by show s.isComplete = false; exact hcomp
          hpick := rfl
          hb1 := by show 1 ≤ s.boundary - 1; omega
          hb2 := by show s.boundary - 1 + 1 ≤ l.length; omega
          hsorted := by
            show sortedRange o arr2 (s.boundary - 1) l.length
            exact hsR }

/-- On sequences of length at least two, the left-convergence insertion init
is active with boundary 0. -/
theorem insInit_left_eq (l : List Int) (hl : 2 ≤ l.length) :
    insInit .left l = { array := l, boundary := 0, picked := none, isComplete := false } := by
  unfold insInit
  rw [insCheckComplete_left]
  rw [if_neg (by show ¬ ((0 : Nat) ≥ l.length - 1); omega)]

/-- On sequences of length at least two, the right-convergence insertion init
is active with boundary at the last index. -/
theorem insInit_right_eq (l : List Int) (hl : 2 ≤ l.length) :
    insInit .right l =
      { array := l, boundary := l.length - 1, picked := none, isComplete := false } := by
  unfold insInit
  rw [insCheckComplete_right]
  rw [if_neg (by show ¬ (l.length - 1 ≤ 0); omega)]

/-- An insertion session of length at least two, driven by an always-correct
learner, completes with a fully sorted permutation of its starting list. -/
theorem insFinal_spec (o : OrderDir) (conv : Conv) (l : List Int) (hl : 2 ≤ l.length) :
    (insFinal o conv l).isComplete = true ∧ FinalSorted o l (insFinal o conv l).array := by
  cases conv
  case left =>
    have hinit := insInit_left_eq l hl
    have run := runSteps_reaches (insCorrectStep o .left) (fun s => s.isComplete)
      (IInvL o l) (fun s => FinalSorted o l s.array) (insMeasL l.length)
      (fun s _ hinv => insL_step hinv)
      (l.length + 1) (insInit .left l)
      (by rw [hinit]; show l.length - 0 < l.length + 1; omega)
      (Or.inl ⟨by rw [hinit], by
        rw [hinit]
        exact
          { len := rfl
            perm := List.Perm.refl l
            hcomp := rfl
            hpick := rfl
            hb := by show 0 + 2 ≤ l.length; omega
            hsorted := by
              intro k1 k2 hlo h12 hk2 hk2l
              replace hk2 : k2 < 0 + 1 := hk2
              have hk1 : k1 = k2 := by omega
              rw [hk1]
              exact leOf_refl o _ }⟩)
    exact ⟨run.1, run.2⟩
  case right =>
    have hinit := insInit_right_eq l hl
    have run := runSteps_reaches (insCorrectStep o .right) (fun s => s.isComplete)
      (IInvR o l) (fun s => FinalSorted o l s.array) insMeasR
      (fun s _ hinv => insR_step hinv)
      (l.length + 1) (insInit .right l)
      (by rw [hinit]; show l.length - 1 < l.length + 1; omega)
      (Or.inl ⟨by rw [hinit], by
        rw [hinit]
        exact
          { len := rfl
            perm := List.Perm.refl l
            hcomp := rfl
            hpick := rfl
            hb1 := by show 1 ≤ l.length - 1; omega
            hb2 := by show l.length - 1 + 1 ≤ l.length; omega
            hsorted := by
              intro k1 k2 hlo h12 hk2 hk2l
              replace hlo : l.length - 1 ≤ k1 := hlo
              have hk1 : k1 = k2 := by omega
              rw [hk1]
              exact leOf_refl o _ }⟩)
    exact ⟨run.1, run.2⟩

/-! ## Selection engine lemmas -/

/-- The left-convergence best-so-far scan keeps an indexed value that is
below the initial candidate and below every scanned element. -/
theorem selScan_min (o : OrderDir) (arr : List Int) :
    ∀ (idxs : List Nat) (bi : Nat) (bv : Int), bv = arr.getD bi 0 →
      (selScan arr (fun e b => shouldPrecede o e b) (bi, bv) idxs).2 =
        arr.getD (selScan arr (fun e b => shouldPrecede o e b) (bi, bv) idxs).1 0 ∧
      ((selScan arr (fun e b => shouldPrecede o e b) (bi, bv) idxs).1 = bi ∨
        (selScan arr (fun e b => shouldPrecede o e b) (bi, bv) idxs).1 ∈ idxs) ∧
      leOf o (selScan arr (fun e b => shouldPrecede o e b) (bi, bv) idxs).2 bv ∧
      ∀ k ∈ idxs, leOf o (selScan arr (fun e b => shouldPrecede o e b) (bi, bv) idxs).2
        (arr.getD k 0) := by
  intro idxs
  induction idxs with
  | nil =>
    intro bi bv hb
    refine ⟨hb, Or.inl rfl, by rw [hb]; exact leOf_refl o _, ?_⟩
    intro k hk
    exact absurd hk (by simp)
  | cons a t ih =>
    intro bi bv hb
    by_cases hc : shouldPrecede o (arr.getD a 0) bv = true
    · have hred : selScan arr (fun e b => shouldPrecede o e b) (bi, bv) (a :: t) =
          selScan arr (fun e b => shouldPrecede o e b) (a, arr.getD a 0) t := by
        unfold selScan
        rw [List.foldl_cons]
        simp only [hc, if_true]
      rw [hred]
      obtain ⟨h1, h2, h3, h4⟩ := ih a (arr.getD a 0) rfl
      have hle : leOf o (arr.getD a 0) bv := le_of_precede hc
      refine ⟨h1, ?_, leOf_trans h3 hle, ?_⟩
      · rcases h2 with h2 | h2
        · exact Or.inr (by rw [h2]; exact List.mem_cons_self a t)
        · exact Or.inr (List.mem_cons_of_mem a h2)
      · intro k hk
        rcases List.mem_cons.mp hk with hk | hk
        · rw [hk]; exact h3
        · exact h4 k hk
    · have hc2 : shouldPrecede o (arr.getD a 0) bv = false := by simpa using hc
      have hred : selScan arr (fun e b => shouldPrecede o e b) (bi, bv) (a :: t) =
          selScan arr (fun e b => shouldPrecede o e b) (bi, bv) t := by
        unfold selScan
        rw [List.foldl_cons]
        simp only [hc2, Bool.false_eq_true, if_false]
      rw [hred]
      obtain ⟨h1, h2, h3, h4⟩ := ih bi bv hb
      have hle : leOf o bv (arr.getD a 0) := precede_false_iff.mp hc2
      refine ⟨h1, ?_, h3, ?_⟩
      · rcases h2 with h2 | h2
        · exact Or.inl h2
        · exact Or.inr (List.mem_cons_of_mem a h2)
      · intro k hk
        rcases List.mem_cons.mp hk with hk | hk
        · rw [hk]; exact leOf_trans h3 hle
        · exact h4 k hk

/-- The right-convergence best-so-far scan keeps an indexed value that is
above the initial candidate and above every scanned element. -/
theorem selScan_max (o : OrderDir) (arr : List Int) :
    ∀ (idxs : List Nat) (bi : Nat) (bv : Int), bv = arr.getD bi 0 →
      (selScan arr (fun e b => shouldPrecede o b e) (bi, bv) idxs).2 =
        arr.getD (selScan arr (fun e b => shouldPrecede o b e) (bi, bv) idxs).1 0 ∧
      ((selScan arr (fun e b => shouldPrecede o b e) (bi, bv) idxs).1 = bi ∨
        (selScan arr (fun e b => shouldPrecede o b e) (bi, bv) idxs).1 ∈ idxs) ∧
      leOf o bv (selScan arr (fun e b => shouldPrecede o b e) (bi, bv) idxs).2 ∧
      ∀ k ∈ idxs, leOf o (arr.getD k 0)
        (selScan arr (fun e b => shouldPrecede o b e) (bi, bv) idxs).2 := by
  intro idxs
  induction idxs with
  | nil =>
    intro bi bv hb
    refine ⟨hb, Or.inl rfl, by rw [hb]; exact leOf_refl o _, ?_⟩
    intro k hk
    exact absurd hk (by simp)
  | cons a t ih =>
    intro bi bv hb
    by_cases hc : shouldPrecede o bv (arr.getD a 0) = true
    · have hred : selScan arr (fun e b => shouldPrecede o b e) (bi, bv) (a :: t) =
          selScan arr (fun e b => shouldPrecede o b e) (a, arr.getD a 0) t := by
        unfold selScan
        rw [List.foldl_cons]
        simp only [hc, if_true]
      rw [hred]
      obtain ⟨h1, h2, h3, h4⟩ := ih a (arr.getD a 0) rfl
      have hle : leOf o bv (arr.getD a 0) := le_of_precede hc
      refine ⟨h1, ?_, leOf_trans hle h3, ?_⟩
      · rcases h2 with h2 | h2
        · exact Or.inr (by rw [h2]; exact List.mem_cons_self a t)
        · exact Or.inr (List.mem_cons_of_mem a h2)
      · intro k hk
        rcases List.mem_cons.mp hk with hk | hk
        · rw [hk]; exact h3
        · exact h4 k hk
    · have hc2 : shouldPrecede o bv (arr.getD a 0) = false := by simpa using hc
      have hred : selScan arr (fun e b => shouldPrecede o b e) (bi, bv) (a :: t) =
          selScan arr (fun e b => shouldPrecede o b e) (bi, bv) t := by
        unfold selScan
        rw [List.foldl_cons]
        simp only [hc2, Bool.false_eq_true, if_false]
      rw [hred]
      obtain ⟨h1, h2, h3, h4⟩ := ih bi bv hb
      have hle : leOf o (arr.getD a 0) bv := precede_false_iff.mp hc2
      refine ⟨h1, ?_, h3, ?_⟩
      · rcases h2 with h2 | h2
        · exact Or.inl h2
        · exact Or.inr (List.mem_cons_of_mem a h2)
      · intro k hk
        rcases List.mem_cons.mp hk with hk | hk
        · rw [hk]; exact leOf_trans hle h3
        · exact h4 k hk

/-- The left-convergence correct target: its value sits at its index inside
the unsettled range `[sortedIndex, length)` and is below every element of
that range. -/
theorem selCorrect_left_spec (o : OrderDir) (arr : List Int) (si : Nat)
    (hsi : si < arr.length) :
    (selCorrect o .left arr si).2 = arr.getD (selCorrect o .left arr si).1 0 ∧
    si ≤ (selCorrect o .left arr si).1 ∧ (selCorrect o .left arr si).1 < arr.length ∧
    ∀ k, si ≤ k → k < arr.length → leOf o (selCorrect o .left arr si).2 (arr.getD k 0) := by
  have hred : selCorrect o .left arr si =
      selScan arr (fun e b => shouldPrecede o e b) (si, arr.getD si 0)
        (List.range' (si + 1) (arr.length - (si + 1))) := rfl
  rw [hred]
  obtain ⟨h1, h2, h3, h4⟩ := selScan_min o arr
    (List.range' (si + 1) (arr.length - (si + 1))) si (arr.getD si 0) rfl
  refine ⟨h1, ?_, ?_, ?_⟩
  · rcases h2 with h2 | h2
    · omega
    · have := List.mem_range'_1.mp h2
      omega
  · rcases h2 with h2 | h2
    · omega
    · have := List.mem_range'_1.mp h2
      omega
  · intro k hk1 hk2
    rcases Nat.eq_or_lt_of_le hk1 with heq | hgt
    · rw [← heq]
      exact h3
    · exact h4 k (List.mem_range'_1.mpr ⟨by omega, by omega⟩)

/-- The right-convergence correct target: its value sits at its index inside
the unsettled range `[0, sortedIndex]` and is above every element of that
range. -/
theorem selCorrect_right_spec (o : OrderDir) (arr : List Int) (si : Nat) :
    (selCorrect o .right arr si).2 = arr.getD (selCorrect o .right arr si).1 0 ∧
    (selCorrect o .right arr si).1 ≤ si ∧
    ∀ k, k ≤ si → leOf o (arr.getD k 0) (selCorrect o .right arr si).2 := by
  have hred : selCorrect o .right arr si =
      selScan arr (fun e b => shouldPrecede o b e) (0, arr.getD 0 0)
        (List.range' 1 si) := rfl
  rw [hred]
  obtain ⟨h1, h2, h3, h4⟩ := selScan_max o arr (List.range' 1 si) 0 (arr.getD 0 0) rfl
  refine ⟨h1, ?_, ?_⟩
  · rcases h2 with h2 | h2
    · omega
    · have := List.mem_range'_1.mp h2
      omega
  · intro k hk
    rcases Nat.eq_zero_or_pos k with heq | hpos
    · rw [heq]
      exact h3
    · exact h4 k (List.mem_range'_1.mpr ⟨by omega, by omega⟩)

/-- Unfolding of the `promptFindTarget` completion test, left convergence. -/
theorem selCheckComplete_left (s : SelState) :
    selCheckComplete .left s =
      if s.sortedIndex ≥ s.array.length - 1 then { s with isComplete := true } else s := rfl

/-- Unfolding of the `promptFindTarget` completion test, right convergence. -/
theorem selCheckComplete_right (s : SelState) :
    selCheckComplete .right s =
      if s.sortedIndex ≤ 0 then { s with isComplete := true } else s := rfl

/-- A left-convergence selection click whose index or value matches the
computed target is accepted: the element is swapped to the boundary, the
boundary advances, and the completion test re-runs. -/
theorem selHandle_accept_left {o : OrderDir} {s : SelState} {idx : Nat}
    (hacc : idx = (selCorrect o .left s.array s.sortedIndex).1 ∨
      s.array.getD idx 0 = (selCorrect o .left s.array s.sortedIndex).2) :
    selHandle o .left s idx =
      (selCheckComplete .left
        { s with
          array := swapPair s.array s.sortedIndex idx
          sortedIndex := s.sortedIndex + 1 }, .ok) := by
  unfold selHandle
  rw [if_pos hacc]

/-- A right-convergence selection click whose index or value matches the
computed target is accepted: the element is swapped to the boundary, the
boundary retreats, and the completion test re-runs. -/
theorem selHandle_accept_right {o : OrderDir} {s : SelState} {idx : Nat}
    (hacc : idx = (selCorrect o .right s.array s.sortedIndex).1 ∨
      s.array.getD idx 0 = (selCorrect o .right s.array s.sortedIndex).2) :
    selHandle o .right s idx =
      (selCheckComplete .right
        { s with
          array := swapPair s.array s.sortedIndex idx
          sortedIndex := s.sortedIndex - 1 }, .ok) := by
  unfold selHandle
  rw [if_pos hacc]

/-- A selection click whose index and value both miss the computed target is
rejected with the mistake message and no state change. -/
theorem selHandle_reject {o : OrderDir} {conv : Conv} {s : SelState} {idx : Nat}
    (hrej : ¬ (idx = (selCorrect o conv s.array s.sortedIndex).1 ∨
      s.array.getD idx 0 = (selCorrect o conv s.array s.sortedIndex).2)) :
    selHandle o conv s idx =
      (s, .errNotTarget (s.array.getD idx 0) (selCorrect o conv s.array s.sortedIndex).2) := by
  unfold selHandle
  rw [if_neg hrej]

/-- Run invariant of the left-convergence selection session: the settled
prefix `[0, sortedIndex)` is sorted and below the unsettled rest. -/
structure SInvL (o : OrderDir) (l : List Int) (s : SelState) : Prop where
  len : s.array.length = l.length
  perm : s.array.Perm l
  hcomp : s.isComplete = false
  hsi : s.sortedIndex + 2 ≤ l.length
  hsorted : sortedBelow o s.array s.sortedIndex

/-- Run invariant of the right-convergence selection session: the settled
suffix `(sortedIndex, length)` is sorted and above the unsettled rest. -/
structure SInvR (o : OrderDir) (l : List Int) (s : SelState) : Prop where
  len : s.array.length = l.length
  perm : s.array.Perm l
  hcomp : s.isComplete = false
  hsi1 : 1 ≤ s.sortedIndex
  hsi2 : s.sortedIndex + 1 ≤ l.length
  hsorted : sortedAbove o s.array (s.sortedIndex + 1)

/-- Termination measure of the left-convergence selection session. -/
def selMeasL (n : Nat) (s : SelState) : Nat := n - s.sortedIndex

/-- Termination measure of the right-convergence selection session. -/
def selMeasR (s : SelState) : Nat := s.sortedIndex

/-- One always-correct step of an active left-convergence selection session
decreases the measure and either re-establishes the invariant or completes
with a fully sorted permutation of the start list. -/
theorem selL_step {o : OrderDir} {l : List Int} {s : SelState} (h : SInvL o l s) :
    selMeasL l.length (selCorrectStep o .left s) < selMeasL l.length s ∧
    (((selCorrectStep o .left s).isComplete = false ∧ SInvL o l (selCorrectStep o .left s)) ∨
     ((selCorrectStep o .left s).isComplete = true ∧
       FinalSorted o l (selCorrectStep o .left s).array)) := by
  obtain ⟨len, perm, hcomp, hsi, hsorted⟩ := h
  obtain ⟨hval, hlo, hhi, hmin⟩ := selCorrect_left_spec o s.array s.sortedIndex (by omega)
  obtain ⟨ci, hci⟩ : ∃ t, t = (selCorrect o .left s.array s.sortedIndex).1 := ⟨_, rfl⟩
  rw [← hci] at hval hlo hhi
  rw [hval] at hmin
  have hstep : selCorrectStep o .left s =
      selCheckComplete .left
        { s with
          array := swapPair s.array s.sortedIndex ci
          sortedIndex := s.sortedIndex + 1 } := by
    unfold selCorrectStep
    rw [← hci, selHandle_accept_left (Or.inl hci)]
  obtain ⟨arr2, harr2⟩ : ∃ t, t = swapPair s.array s.sortedIndex ci := ⟨_, rfl⟩
  rw [← harr2] at hstep
  have hsilen : s.sortedIndex < s.array.length := by omega
  have hlen2 : arr2.length = l.length := by rw [harr2, swapPair_length, len]
  have hperm2 : arr2.Perm l := by
    rw [harr2]
    exact (swapPair_perm s.array s.sortedIndex ci hsilen hhi).trans perm
  have hdesc : ∀ k, arr2.getD k 0 =
      (if k = ci then s.array.getD s.sortedIndex 0
       else if k = s.sortedIndex then s.array.getD ci 0
       else s.array.getD k 0) := by
    intro k
    by_cases h1 : k = ci
    · subst h1
      rw [if_pos rfl]
      by_cases h2 : s.sortedIndex = k
      · rw [harr2, ← h2, swapPair_self hsilen]
      · rw [harr2, getD_swapPair_snd hhi]
    · rw [if_neg h1]
      by_cases h2 : k = s.sortedIndex
      · rw [if_pos h2, harr2, h2,
          getD_swapPair_fst (show s.sortedIndex ≠ ci from fun hh => h1 (h2.trans hh)) hsilen]
      · rw [if_neg h2, harr2, getD_swapPair_other h2 h1]
  have hsB : sortedBelow o arr2 (s.sortedIndex + 1) := by
    intro k1 k2 h12 hk1 hk2len
    rw [hlen2] at hk2len
    rw [hdesc k1, hdesc k2]
    by_cases a1 : k1 = ci
    · have hsc : s.sortedIndex = ci := by omega
      rw [if_pos a1]
      by_cases b1 : k2 = ci
      · rw [if_pos b1]
        exact leOf_refl o _
      · rw [if_neg b1]
        by_cases b2 : k2 = s.sortedIndex
        · omega
        · rw [if_neg b2, hsc]
          exact hmin k2 (by omega) (by omega)
    · rw [if_neg a1]
      by_cases a2 : k1 = s.sortedIndex
      · rw [if_pos a2]
        by_cases b1 : k2 = ci
        · rw [if_pos b1]
          exact hmin s.sortedIndex (by omega) (by omega)
        · rw [if_neg b1]
          by_cases b2 : k2 = s.sortedIndex
          · rw [if_pos b2]
            exact leOf_refl o _
          · rw [if_neg b2]
            exact hmin k2 (by omega) (by omega)
      · rw [if_neg a2]
        have hk1si : k1 < s.sortedIndex := by omega
        by_cases b1 : k2 = ci
        · rw [if_pos b1]
          exact hsorted k1 s.sortedIndex (by omega) hk1si (by omega)
        · rw [if_neg b1]
          by_cases b2 : k2 = s.sortedIndex
          · rw [if_pos b2]
            exact hsorted k1 ci (by omega) hk1si (by omega)
          · rw [if_neg b2]
            exact hsorted k1 k2 h12 hk1si (by omega)
  rw [hstep, selCheckComplete_left]
  by_cases hfin : s.sortedIndex + 1 ≥ l.length - 1
  · rw [if_pos (by show s.sortedIndex + 1 ≥ arr2.length - 1; rw [hlen2]; exact hfin)]
    refine ⟨?_, Or.inr ⟨rfl, ?_, by show arr2.Perm l; exact hperm2,
      by show arr2.length = l.length; exact hlen2⟩⟩
    · show l.length - (s.sortedIndex + 1) < l.length - s.sortedIndex
      omega
    · show fullySorted o arr2
      have heq : s.sortedIndex + 1 = arr2.length - 1 := by omega
      rw [heq] at hsB
      exact fullySorted_of_sortedBelow hsB
  · rw [if_neg (by show ¬ (s.sortedIndex + 1 ≥ arr2.length - 1); rw [hlen2]; exact hfin)]
    refine ⟨?_, Or.inl ⟨by show s.isComplete = false; exact hcomp, ?_⟩⟩
    · show l.length - (s.sortedIndex + 1) < l.length - s.sortedIndex
      omega
    · exact
        { len := by show arr2.length = l.length; exact hlen2
          perm := by show arr2.Perm l; exact hperm2
          hcomp := by show s.isComplete = false; exact hcomp
          hsi := by show s.sortedIndex + 1 + 2 ≤ l.length; omega
          hsorted := by show sortedBelow o arr2 (s.sortedIndex + 1); exact hsB }

/-- One always-correct step of an active right-convergence selection session
decreases the measure and either re-establishes the invariant or completes
with a fully sorted permutation of the start list. -/
theorem selR_step {o : OrderDir} {l : List Int} {s : SelState} (h : SInvR o l s) :
    selMeasR (selCorrectStep o .right s) < selMeasR s ∧
    (((selCorrectStep o .right s).isComplete = false ∧ SInvR o l (selCorrectStep o .right s)) ∨
     ((selCorrectStep o .right s).isComplete = true ∧
       FinalSorted o l (selCorrectStep o .right s).array)) := by
  obtain ⟨len, perm, hcomp, hsi1, hsi2, hsorted⟩ := h
  obtain ⟨hval, hhi, hmax⟩ := selCorrect_right_spec o s.array s.sortedIndex
  obtain ⟨ci, hci⟩ : ∃ t, t = (selCorrect o .right s.array s.sortedIndex).1 := ⟨_, rfl⟩
  rw [← hci] at hval hhi
  rw [hval] at hmax
  have hstep : selCorrectStep o .right s =
      selCheckComplete .right
        { s with
          array := swapPair s.array s.sortedIndex ci
          sortedIndex := s.sortedIndex - 1 } := by
    unfold selCorrectStep
    rw [← hci, selHandle_accept_right (Or.inl hci)]
  obtain ⟨arr2, harr2⟩ : ∃ t, t = swapPair s.array s.sortedIndex ci := ⟨_, rfl⟩
  rw [← harr2] at hstep
  have hsilen : s.sortedIndex < s.array.length := by omega
  have hcilen : ci < s.array.length := by omega
  have hlen2 : arr2.length = l.length := by rw [harr2, swapPair_length, len]
  have hperm2 : arr2.Perm l := by
    rw [harr2]
    exact (swapPair_perm s.array s.sortedIndex ci hsilen hcilen).trans perm
  have hdesc : ∀ k, arr2.getD k 0 =
      (if k = ci then s.array.getD s.sortedIndex 0
       else if k = s.sortedIndex then s.array.getD ci 0
       else s.array.getD k 0) := by
    intro k
    by_cases h1 : k = ci
    · subst h1
      rw [if_pos rfl]
      by_cases h2 : s.sortedIndex = k
      · rw [harr2, ← h2, swapPair_self hsilen]
      · rw [harr2, getD_swapPair_snd hcilen]
    · rw [if_neg h1]
      by_cases h2 : k = s.sortedIndex
      · rw [if_pos h2, harr2, h2,
          getD_swapPair_fst (show s.sortedIndex ≠ ci from fun hh => h1 (h2.trans hh)) hsilen]
      · rw [if_neg h2, harr2, getD_swapPair_other h2 h1]
  have hsA : sortedAbove o arr2 s.sortedIndex := by
    intro k1 k2 h12 hk2lo hk2len
    rw [hlen2] at hk2len
    rw [hdesc k1, hdesc k2]
    by_cases b1 : k2 = ci
    · have hsc : s.sortedIndex = ci := by omega
      rw [if_pos b1]
      by_cases a1 : k1 = ci
      · rw [if_pos a1]
        exact leOf_refl o _
      · rw [if_neg a1]
        by_cases a2 : k1 = s.sortedIndex
        · omega
        · rw [if_neg a2, hsc]
          exact hmax k1 (by omega)
    · rw [if_neg b1]
      by_cases b2 : k2 = s.sortedIndex
      · rw [if_pos b2]
        by_cases a1 : k1 = ci
        · rw [if_pos a1]
          exact hmax s.sortedIndex (by omega)
        · rw [if_neg a1]
          by_cases a2 : k1 = s.sortedIndex
          · rw [if_pos a2]
            exact leOf_refl o _
          · rw [if_neg a2]
            exact hmax k1 (by omega)
      · rw [if_neg b2]
        have hk2si : s.sortedIndex < k2 := by omega
        by_cases a1 : k1 = ci
        · rw [if_pos a1]
          exact hsorted s.sortedIndex k2 (by omega) (by omega) (by omega)
        · rw [if_neg a1]
          by_cases a2 : k1 = s.sortedIndex
          · rw [if_pos a2]
            exact hsorted ci k2 (by omega) (by omega) (by omega)
          · rw [if_neg a2]
            exact hsorted k1 k2 h12 (by omega) (by omega)
  rw [hstep, selCheckComplete_right]
  by_cases hfin : s.sortedIndex - 1 ≤ 0
  · rw [if_pos (by show s.sortedIndex - 1 ≤ 0; exact hfin)]
    refine ⟨?_, Or.inr ⟨rfl, ?_, by show arr2.Perm l; exact hperm2,
      by show arr2.length = l.length; exact hlen2⟩⟩
    · show s.sortedIndex - 1 < s.sortedIndex
      omega
    · show fullySorted o arr2
      have heq : s.sortedIndex = 1 := by omega
      rw [heq] at hsA
      exact fullySorted_of_sortedAbove hsA
  · rw [if_neg (by show ¬ (s.sortedIndex - 1 ≤ 0); exact hfin)]
    refine ⟨?_, Or.inl ⟨by show s.isComplete = false; exact hcomp, ?_⟩⟩
    · show s.sortedIndex - 1 < s.sortedIndex
      omega
    · exact
        { len := by show arr2.length = l.length; exact hlen2
          perm := by show arr2.Perm l; exact hperm2
          hcomp := by show s.isComplete = false; exact hcomp
          hsi1 := by show 1 ≤ s.sortedIndex - 1; omega
          hsi2 := by show s.sortedIndex - 1 + 1 ≤ l.length; omega
          hsorted := by
            show sortedAbove o arr2 (s.sortedIndex - 1 + 1)
            rw [show s.sortedIndex - 1 + 1 = s.sortedIndex from by omega]
            exact hsA }

/-- On sequences of length at least two, the left-convergence selection init
is active with the boundary at index 0. -/
theorem selInit_left_eq (l : List Int) (hl : 2 ≤ l.length) :
    selInit .left l = { array := l, sortedIndex := 0, isComplete := false } := by
  unfold selInit
  rw [selCheckComplete_left]
  rw [if_neg (by show ¬ ((0 : Nat) ≥ l.length - 1); omega)]

/-- On sequences of length at least two, the right-convergence selection init
is active with the boundary at the last index. -/
theorem selInit_right_eq (l : List Int) (hl : 2 ≤ l.length) :
    selInit .right l = { array := l, sortedIndex := l.length - 1, isComplete := false } := by
  unfold selInit
  rw [selCheckComplete_right]
  rw [if_neg (by show ¬ (l.length - 1 ≤ 0); omega)]

/-- A selection session of length at least two, driven by an always-correct
learner, completes with a fully sorted permutation of its starting list. -/
theorem selFinal_spec (o : OrderDir) (conv : Conv) (l : List Int) (hl : 2 ≤ l.length) :
    (selFinal o conv l).isComplete = true ∧ FinalSorted o l (selFinal o conv l).array := by
  cases conv
  case left =>
    have hinit := selInit_left_eq l hl
    have run := runSteps_reaches (selCorrectStep o .left) (fun s => s.isComplete)
      (SInvL o l) (fun s => FinalSorted o l s.array) (selMeasL l.length)
      (fun s _ hinv => selL_step hinv)
      (l.length + 1) (selInit .left l)
      (by rw [hinit]; show l.length - 0 < l.length + 1; omega)
      (Or.inl ⟨by rw [hinit], by
        rw [hinit]
        exact
          { len := rfl
            perm := List.Perm.refl l
            hcomp := rfl
            hsi := by show 0 + 2 ≤ l.length; omega
            hsorted := by
              intro k1 k2 h12 hk1 hk2
              replace hk1 : k1 < 0 := hk1
              omega }⟩)
    exact ⟨run.1, run.2⟩
  case right =>
    have hinit := selInit_right_eq l hl
    have run := runSteps_reaches (selCorrectStep o .right) (fun s => s.isComplete)
      (SInvR o l) (fun s => FinalSorted o l s.array) selMeasR
      (fun s _ hinv => selR_step hinv)
      (l.length + 1) (selInit .right l)
      (by rw [hinit]; show l.length - 1 < l.length + 1; omega)
      (Or.inl ⟨by rw [hinit], by
        rw [hinit]
        exact
          { len := rfl
            perm := List.Perm.refl l
            hcomp := rfl
            hsi1 := by show 1 ≤ l.length - 1; omega
            hsi2 := by show l.length - 1 + 1 ≤ l.length; omega
            hsorted := by
              intro k1 k2 h12 hk2lo hk2
              replace hk2lo : l.length - 1 + 1 ≤ k2 := hk2lo
              replace hk2 : k2 < l.length := hk2
              omega }⟩)
    exact ⟨run.1, run.2⟩

/-! ## Reachability invariants -/

/-- Index bounds maintained by the bubble engine: the progress indices stay
inside the sequence, and on active states the scanned pair is in its
convergence-dependent range. -/
def bubbleIdxOk (conv : Conv) (n : Nat) (s : BubbleState) : Prop :=
  s.i + 1 ≤ n ∧ s.j + 1 ≤ n ∧
  (s.isComplete = false →
    (match conv with
     | .right => s.i + 2 ≤ n ∧ s.j + s.i + 2 ≤ n
     | .left => s.i + 2 ≤ n ∧ s.i + 1 ≤ s.j ∧ s.j + 1 ≤ n))

/-- Every bubble button press either leaves the state unchanged (rejection,
or the completion guard) or coincides with the always-correct step. -/
theorem bubbleHandleAction_cases (o : OrderDir) (conv : Conv) (s : BubbleState)
    (a : BubbleAction) :
    (bubbleHandleAction o conv s a).1 = s ∨
    (s.isComplete = false ∧ (bubbleHandleAction o conv s a).1 = bubbleCorrectStep o conv s) := by
  by_cases hc : s.isComplete = true
  · left
    unfold bubbleHandleAction
    rw [if_pos hc]
  · have hc2 : s.isComplete = false := by simpa using hc
    by_cases hs2 : bubbleShouldSwap o conv s = true
    · cases a with
      | swap =>
        right
        refine ⟨hc2, ?_⟩
        unfold bubbleCorrectStep bubbleCorrectAction
        rw [hs2]
        simp
      | next =>
        left
        unfold bubbleHandleAction
        rw [if_neg hc, hs2]
        simp
    · have hs3 : bubbleShouldSwap o conv s = false := by simpa using hs2
      cases a with
      | swap =>
        left
        unfold bubbleHandleAction
        rw [if_neg hc, hs3]
        simp
      | next =>
        right
        refine ⟨hc2, ?_⟩
        unfold bubbleCorrectStep bubbleCorrectAction
        rw [hs3]
        simp

/-- One always-correct step on an active in-bounds bubble state preserves
length, permutation and the index bounds. -/
theorem bubbleStep_bounds {o : OrderDir} {conv : Conv} {l : List Int} {s : BubbleState}
    (hlen : s.array.length = l.length) (hperm : s.array.Perm l)
    (hcomp : s.isComplete = false) (hidx : bubbleIdxOk conv l.length s) :
    (bubbleCorrectStep o conv s).array.length = l.length ∧
    (bubbleCorrectStep o conv s).array.Perm l ∧
    bubbleIdxOk conv l.length (bubbleCorrectStep o conv s) := by
  obtain ⟨hi1, hj1, hact⟩ := hidx
  rw [bubbleCorrectStep_eq hcomp]
  cases conv
  case right =>
    obtain ⟨hi2, hj2⟩ := hact hcomp
    have ha : (bubblePair .right s).1 < s.array.length := by
      show s.j < s.array.length
      omega
    have hb : (bubblePair .right s).2 < s.array.length := by
      show s.j + 1 < s.array.length
      omega
    obtain ⟨arr2, harr2⟩ : ∃ t, t =
        (if bubbleShouldSwap o .right s then
          swapPair s.array (bubblePair .right s).1 (bubblePair .right s).2 else s.array) :=
      ⟨_, rfl⟩
    rw [← harr2]
    have hlen2 : arr2.length = l.length := by
      rw [harr2]
      split
      · rw [swapPair_length, hlen]
      · exact hlen
    have hperm2 : arr2.Perm l := by
      rw [harr2]
      split
      · exact (swapPair_perm _ _ _ ha hb).trans hperm
      · exact hperm
    rw [bubbleNextStep_right]
    by_cases hcond : s.j + 1 ≥ arr2.length - 1 - s.i
    · rw [if_pos (by show s.j + 1 ≥ arr2.length - 1 - s.i; exact hcond)]
      rw [hlen2] at hcond
      refine ⟨hlen2, hperm2, by show s.i + 1 + 1 ≤ l.length; omega,
        by show 0 + 1 ≤ l.length; omega, ?_⟩
      intro hc2
      replace hc2 : decide (s.i + 1 ≥ arr2.length - 1) = false := hc2
      rw [hlen2] at hc2
      simp only [decide_eq_false_iff_not] at hc2
      exact ⟨by show s.i + 1 + 2 ≤ l.length; omega,
        by show 0 + (s.i + 1) + 2 ≤ l.length; omega⟩
    · rw [if_neg (by show ¬ (s.j + 1 ≥ arr2.length - 1 - s.i); exact hcond)]
      rw [hlen2] at hcond
      refine ⟨hlen2, hperm2, by show s.i + 1 ≤ l.length; omega,
        by show s.j + 1 + 1 ≤ l.length; omega, ?_⟩
      intro _
      exact ⟨by show s.i + 2 ≤ l.length; omega,
        by show s.j + 1 + s.i + 2 ≤ l.length; omega⟩
  case left =>
    obtain ⟨hi2, hjlo, hjhi⟩ := hact hcomp
    have ha : (bubblePair .left s).1 < s.array.length := by
      show s.j - 1 < s.array.length
      omega
    have hb : (bubblePair .left s).2 < s.array.length := by
      show s.j < s.array.length
      omega
    obtain ⟨arr2, harr2⟩ : ∃ t, t =
        (if bubbleShouldSwap o .left s then
          swapPair s.array (bubblePair .left s).1 (bubblePair .left s).2 else s.array) :=
      ⟨_, rfl⟩
    rw [← harr2]
    have hlen2 : arr2.length = l.length := by
      rw [harr2]
      split
      · rw [swapPair_length, hlen]
      · exact hlen
    have hperm2 : arr2.Perm l := by
      rw [harr2]
      split
      · exact (swapPair_perm _ _ _ ha hb).trans hperm
      · exact hperm
    rw [bubbleNextStep_left]
    by_cases hcond : s.j - 1 ≤ s.i
    · rw [if_pos (by show s.j - 1 ≤ s.i; exact hcond)]
      refine ⟨hlen2, hperm2, by show s.i + 1 + 1 ≤ l.length; omega,
        by show arr2.length - 1 + 1 ≤ l.length; omega, ?_⟩
      intro hc2
      replace hc2 : decide (s.i + 1 ≥ arr2.length - 1) = false := hc2
      rw [hlen2] at hc2
      simp only [decide_eq_false_iff_not] at hc2
      refine ⟨by show s.i + 1 + 2 ≤ l.length; omega,
        by show s.i + 1 + 1 ≤ arr2.length - 1; omega,
        by show arr2.length - 1 + 1 ≤ l.length; omega⟩
    · rw [if_neg (by show ¬ (s.j - 1 ≤ s.i); exact hcond)]
      refine ⟨hlen2, hperm2, by show s.i + 1 ≤ l.length; omega,
        by show s.j - 1 + 1 ≤ l.length; omega, ?_⟩
      intro _
      exact ⟨by show s.i + 2 ≤ l.length; omega, by show s.i + 1 ≤ s.j - 1; omega,
        by show s.j - 1 + 1 ≤ l.length; omega⟩

/-- Every state reachable through arbitrary learner button presses in a
bubble session over a list of length at least two keeps its length, stays a
permutation of the start list, and keeps every index in bounds. -/
theorem bubbleReach_inv {o : OrderDir} {conv : Conv} {l : List Int} {s : BubbleState}
    (hl : 2 ≤ l.length) (hr : BubbleReach o conv l s) :
    s.array.length = l.length ∧ s.array.Perm l ∧ bubbleIdxOk conv l.length s := by
  induction hr with
  | init =>
    refine ⟨rfl, List.Perm.refl l, ?_⟩
    cases conv
    · exact ⟨by show 0 + 1 ≤ l.length; omega,
        by show l.length - 1 + 1 ≤ l.length; omega,
        fun _ => ⟨by show 0 + 2 ≤ l.length; omega,
          by show 0 + 1 ≤ l.length - 1; omega,
          by show l.length - 1 + 1 ≤ l.length; omega⟩⟩
    · exact ⟨by show 0 + 1 ≤ l.length; omega,
        by show 0 + 1 ≤ l.length; omega,
        fun _ => ⟨by show 0 + 2 ≤ l.length; omega,
          by show 0 + 0 + 2 ≤ l.length; omega⟩⟩
  | step s a _ ih =>
    rcases bubbleHandleAction_cases o conv s a with heq | ⟨hc, heq⟩
    · rw [heq]
      exact ih
    · rw [heq]
      exact bubbleStep_bounds ih.1 ih.2.1 hc ih.2.2

/-- Consistency of an in-flight pick: it records the value and index of the
single armed card, taken while the session was active and in range. -/
def insPickedOk (conv : Conv) (n : Nat) (s : InsState) : Prop :=
  match s.picked with
  | none => True
  | some (v, ci) =>
      v = s.array.getD ci 0 ∧ ci = insPickIndex conv s ∧ s.isComplete = false ∧
      (match conv with
       | .left => s.boundary + 2 ≤ n
       | .right => 1 ≤ s.boundary ∧ s.boundary + 1 ≤ n)

/-- Bounds the `promptPick` completion test guarantees on an active state. -/
def insActiveOk (conv : Conv) (n : Nat) (s : InsState) : Prop :=
  s.isComplete = false →
    (match conv with
     | .left => s.boundary + 2 ≤ n
     | .right => 1 ≤ s.boundary ∧ s.boundary + 1 ≤ n)

/-- Every state reachable through picks and arbitrary slot proposals in an
insertion session over a list of length at least two keeps its length, stays
a permutation of the start list, and keeps the boundary and pick index in
bounds. -/
theorem insReach_inv {o : OrderDir} {conv : Conv} {l : List Int} {s : InsState}
    (hl : 2 ≤ l.length) (hr : InsReach o conv l s) :
    s.array.length = l.length ∧ s.array.Perm l ∧ s.boundary + 1 ≤ l.length ∧
    insPickedOk conv l.length s ∧ insActiveOk conv l.length s := by
  induction hr with
  | init =>
    cases conv
    case left =>
      rw [insInit_left_eq l hl]
      refine ⟨rfl, List.Perm.refl l, by show 0 + 1 ≤ l.length; omega, trivial, ?_⟩
      intro _
      show 0 + 2 ≤ l.length
      omega
    case right =>
      rw [insInit_right_eq l hl]
      refine ⟨rfl, List.Perm.refl l, by show l.length - 1 + 1 ≤ l.length; omega, trivial, ?_⟩
      intro _
      exact ⟨by show 1 ≤ l.length - 1; omega, by show l.length - 1 + 1 ≤ l.length; omega⟩
  | pick s _ ih =>
    obtain ⟨len, perm, hb, hpok, haok⟩ := ih
    unfold insPick
    by_cases hc : s.isComplete = true
    · rw [if_pos hc]
      exact ⟨len, perm, hb, hpok, haok⟩
    · have hc2 : s.isComplete = false := by simpa using hc
      rw [if_neg hc]
      rcases hp : s.picked with _ | ⟨v, ci⟩
      · simp only
        refine ⟨len, perm, hb, ?_, haok⟩
        show insPickedOk conv l.length
          { s with picked := some (s.array.getD (insPickIndex conv s) 0, insPickIndex conv s) }
        unfold insPickedOk
        exact ⟨rfl, rfl, hc2, haok hc2⟩
      · simp only
        exact ⟨len, perm, hb, hpok, haok⟩
  | place s slot _ ih =>
    obtain ⟨len, perm, hb, hpok, haok⟩ := ih
    unfold insPlace
    rcases hp : s.picked with _ | ⟨v, ci⟩
    · simp only [hp]
      exact ⟨len, perm, hb, hpok, haok⟩
    · unfold insPickedOk at hpok
      rw [hp] at hpok
      obtain ⟨hv, hcieq, hact, hbnd⟩ := hpok
      simp only [hp]
      by_cases hs2 : slot = insCorrectSlot o conv s.array s.boundary v
      · rw [if_pos hs2]
        simp only
        cases conv with
        | left =>
          replace hbnd : s.boundary + 2 ≤ l.length := hbnd
          have hcid : ci = s.boundary + 1 := hcieq
          have hchar := insCorrectSlot_left_char o s.array s.boundary v
          have hsl : insCorrectSlot o .left s.array s.boundary v ≤ s.boundary + 1 := by
            rcases hchar with ⟨h1, _, _⟩ | ⟨h1, _⟩ <;> omega
          rw [hs2, hcid] at *
          have hci : s.boundary + 1 < s.array.length := by omega
          have hlen1 : (s.array.eraseIdx (s.boundary + 1)).length = s.array.length - 1 := by
            rw [List.length_eraseIdx, if_pos hci]
          have hiAt : (if insCorrectSlot o .left s.array s.boundary v > s.boundary + 1
              then insCorrectSlot o .left s.array s.boundary v - 1
              else insCorrectSlot o .left s.array s.boundary v) =
              insCorrectSlot o .left s.array s.boundary v := by
            rw [if_neg (by omega)]
          rw [hiAt]
          have hlen2 : ((s.array.eraseIdx (s.boundary + 1)).insertIdx
              (insCorrectSlot o .left s.array s.boundary v)
              (s.array.getD (s.boundary + 1) 0)).length = l.length := by
            rw [List.length_insertIdx _ _ (by rw [hlen1]; omega), hlen1]
            omega
          have hperm2 : ((s.array.eraseIdx (s.boundary + 1)).insertIdx
              (insCorrectSlot o .left s.array s.boundary v)
              (s.array.getD (s.boundary + 1) 0)).Perm l := by
            refine List.Perm.trans (insertIdx_perm _ _ _ (by rw [hlen1]; omega)) ?_
            exact (cons_eraseIdx_perm hci).trans perm
          rw [insCheckComplete_left]
          by_cases hfin : s.boundary + 1 ≥ l.length - 1
          · rw [if_pos (by
              show s.boundary + 1 ≥ ((s.array.eraseIdx (s.boundary + 1)).insertIdx
                (insCorrectSlot o .left s.array s.boundary v)
                (s.array.getD (s.boundary + 1) 0)).length - 1
              rw [hlen2]; exact hfin)]
            refine ⟨hlen2, hperm2, by show s.boundary + 1 + 1 ≤ l.length; omega, trivial, ?_⟩
            intro hcc
            exact absurd hcc (by simp)
          · rw [if_neg (by
              show ¬ (s.boundary + 1 ≥ ((s.array.eraseIdx (s.boundary + 1)).insertIdx
                (insCorrectSlot o .left s.array s.boundary v)
                (s.array.getD (s.boundary + 1) 0)).length - 1)
              rw [hlen2]; exact hfin)]
            refine ⟨hlen2, hperm2, by show s.boundary + 1 + 1 ≤ l.length; omega, trivial, ?_⟩
            intro _
            show s.boundary + 1 + 2 ≤ l.length
            omega
        | right =>
          obtain ⟨hbnd1, hbnd2⟩ := hbnd
          have hcid : ci = s.boundary - 1 := hcieq
          have hchar := insCorrectSlot_right_char o s.array s.boundary v (by omega)
          have hslb : s.boundary ≤ insCorrectSlot o .right s.array s.boundary v := by
            rcases hchar with ⟨h1, _, _, _⟩ | ⟨h1, _⟩ <;> omega
          have hsln : insCorrectSlot o .right s.array s.boundary v ≤ l.length := by
            rcases hchar with ⟨_, h1, _, _⟩ | ⟨h1, _⟩ <;> omega
          rw [hs2, hcid] at *
          have hci : s.boundary - 1 < s.array.length := by omega
          have hlen1 : (s.array.eraseIdx (s.boundary - 1)).length = s.array.length - 1 := by
            rw [List.length_eraseIdx, if_pos hci]
          have hiAt : (if insCorrectSlot o .right s.array s.boundary v > s.boundary - 1
              then insCorrectSlot o .right s.array s.boundary v - 1
              else insCorrectSlot o .right s.array s.boundary v) =
              insCorrectSlot o .right s.array s.boundary v - 1 := by
            rw [if_pos (by omega)]
          rw [hiAt]
          have hlen2 : ((s.array.eraseIdx (s.boundary - 1)).insertIdx
              (insCorrectSlot o .right s.array s.boundary v - 1)
              (s.array.getD (s.boundary - 1) 0)).length = l.length := by
            rw [List.length_insertIdx _ _ (by rw [hlen1]; omega), hlen1]
            omega
          have hperm2 : ((s.array.eraseIdx (s.boundary - 1)).insertIdx
              (insCorrectSlot o .right s.array s.boundary v - 1)
              (s.array.getD (s.boundary - 1) 0)).Perm l := by
            refine List.Perm.trans (insertIdx_perm _ _ _ (by rw [hlen1]; omega)) ?_
            exact (cons_eraseIdx_perm hci).trans perm
          rw [insCheckComplete_right]
          by_cases hfin : s.boundary - 1 ≤ 0
          · rw [if_pos (by show s.boundary - 1 ≤ 0; exact hfin)]
            refine ⟨hlen2, hperm2, by show s.boundary - 1 + 1 ≤ l.length; omega, trivial, ?_⟩
            intro hcc
            exact absurd hcc (by simp)
          · rw [if_neg (by show ¬ (s.boundary - 1 ≤ 0); exact hfin)]
            refine ⟨hlen2, hperm2, by show s.boundary - 1 + 1 ≤ l.length; omega, trivial, ?_⟩
            intro _
            exact ⟨by show 1 ≤ s.boundary - 1; omega, by show s.boundary - 1 + 1 ≤ l.length; omega⟩
      · rw [if_neg hs2]
        simp only
        refine ⟨len, perm, hb, ?_, haok⟩
        unfold insPickedOk
        rw [hp]
        exact ⟨hv, hcieq, hact, hbnd⟩

/-- Bounds the `promptFindTarget` completion test guarantees on an active
state. -/
def selActiveOk (conv : Conv) (n : Nat) (s : SelState) : Prop :=
  s.isComplete = false →
    (match conv with
     | .left => s.sortedIndex + 2 ≤ n
     | .right => 1 ≤ s.sortedIndex)

/-- Every state reachable through clicks on armed cards in a selection
session over a list of length at least two keeps its length, stays a
permutation of the start list, and keeps the boundary in bounds. -/
theorem selReach_inv {o : OrderDir} {conv : Conv} {l : List Int} {s : SelState}
    (hl : 2 ≤ l.length) (hr : SelReach o conv l s) :
    s.array.length = l.length ∧ s.array.Perm l ∧ s.sortedIndex + 1 ≤ l.length ∧
    selActiveOk conv l.length s := by
  induction hr with
  | init =>
    cases conv with
    | left =>
      rw [selInit_left_eq l hl]
      refine ⟨rfl, List.Perm.refl l, by show 0 + 1 ≤ l.length; omega, ?_⟩
      intro _
      show 0 + 2 ≤ l.length
      omega
    | right =>
      rw [selInit_right_eq l hl]
      refine ⟨rfl, List.Perm.refl l, by show l.length - 1 + 1 ≤ l.length; omega, ?_⟩
      intro _
      show 1 ≤ l.length - 1
      omega
  | step s idx _ hact hel ih =>
    obtain ⟨len, perm, hsi, hbnd⟩ := ih
    by_cases hacc : idx = (selCorrect o conv s.array s.sortedIndex).1 ∨
        s.array.getD idx 0 = (selCorrect o conv s.array s.sortedIndex).2
    · have hidx : idx < s.array.length := by
        cases conv with
        | left =>
          replace hel : s.sortedIndex ≤ idx ∧ idx < s.array.length := hel
          exact hel.2
        | right =>
          replace hel : idx ≤ s.sortedIndex := hel
          replace hbnd : 1 ≤ s.sortedIndex := hbnd hact
          omega
      have hsil : s.sortedIndex < s.array.length := by omega
      have hperm2 : (swapPair s.array s.sortedIndex idx).Perm l :=
        (swapPair_perm s.array s.sortedIndex idx hsil hidx).trans perm
      have hlen2 : (swapPair s.array s.sortedIndex idx).length = l.length := by
        rw [swapPair_length, len]
      cases conv with
      | left =>
        replace hbnd : s.sortedIndex + 2 ≤ l.length := hbnd hact
        rw [selHandle_accept_left hacc, selCheckComplete_left]
        by_cases hfin : s.sortedIndex + 1 ≥ l.length - 1
        · rw [if_pos (by
            show s.sortedIndex + 1 ≥ (swapPair s.array s.sortedIndex idx).length - 1
            rw [hlen2]; exact hfin)]
          refine ⟨hlen2, hperm2, by show s.sortedIndex + 1 + 1 ≤ l.length; omega, ?_⟩
          intro hcc
          exact absurd hcc (by simp)
        · rw [if_neg (by
            show ¬ (s.sortedIndex + 1 ≥ (swapPair s.array s.sortedIndex idx).length - 1)
            rw [hlen2]; exact hfin)]
          refine ⟨hlen2, hperm2, by show s.sortedIndex + 1 + 1 ≤ l.length; omega, ?_⟩
          intro _
          show s.sortedIndex + 1 + 2 ≤ l.length
          omega
      | right =>
        replace hbnd : 1 ≤ s.sortedIndex := hbnd hact
        rw [selHandle_accept_right hacc, selCheckComplete_right]
        by_cases hfin : s.sortedIndex - 1 ≤ 0
        · rw [if_pos (by show s.sortedIndex - 1 ≤ 0; exact hfin)]
          refine ⟨hlen2, hperm2, by show s.sortedIndex - 1 + 1 ≤ l.length; omega, ?_⟩
          intro hcc
          exact absurd hcc (by simp)
        · rw [if_neg (by show ¬ (s.sortedIndex - 1 ≤ 0); exact hfin)]
          refine ⟨hlen2, hperm2, by show s.sortedIndex - 1 + 1 ≤ l.length; omega, ?_⟩
          intro _
          show 1 ≤ s.sortedIndex - 1
          omega
    · rw [selHandle_reject hacc]
      exact ⟨len, perm, hsi, hbnd⟩

/-! ## Claim theorems -/

/-- C1: for every sequence of length at least two (hence every valid
sequence), both order directions and both convergence directions, driving any
of the three engines (bubble, insertion, selection) to completion with
always-correct learner actions leaves the sequence adjacently ordered: for
all adjacent indices `k`, `shouldPrecede` holds of the pair or the two
entries are equal. -/
theorem claim1_engines_sort_on_completion (o : OrderDir) (conv : Conv) (l : List Int)
    (hl : 2 ≤ l.length) :
    ((bubbleFinal o conv l).isComplete = true ∧ adjOrdered o (bubbleFinal o conv l).array) ∧
    ((insFinal o conv l).isComplete = true ∧ adjOrdered o (insFinal o conv l).array) ∧
    ((selFinal o conv l).isComplete = true ∧ adjOrdered o (selFinal o conv l).array) := by
  have hb := bubbleFinal_spec o conv l hl
  have hi := insFinal_spec o conv l hl
  have hs := selFinal_spec o conv l hl
  replace hb : (bubbleFinal o conv l).isComplete = true ∧
      fullySorted o (bubbleFinal o conv l).array ∧ (bubbleFinal o conv l).array.Perm l ∧
      (bubbleFinal o conv l).array.length = l.length := hb
  replace hi : (insFinal o conv l).isComplete = true ∧
      fullySorted o (insFinal o conv l).array ∧ (insFinal o conv l).array.Perm l ∧
      (insFinal o conv l).array.length = l.length := hi
  replace hs : (selFinal o conv l).isComplete = true ∧
      fullySorted o (selFinal o conv l).array ∧ (selFinal o conv l).array.Perm l ∧
      (selFinal o conv l).array.length = l.length := hs
  exact ⟨⟨hb.1, adjOrdered_of_fullySorted hb.2.1⟩, ⟨hi.1, adjOrdered_of_fullySorted hi.2.1⟩,
    ⟨hs.1, adjOrdered_of_fullySorted hs.2.1⟩⟩

/-- Witness for C1: a concrete session over five values. -/
theorem claim1_engines_sort_on_completion_witness :
    2 ≤ ([5, 3, 4, 2, 1] : List Int).length ∧
    (((bubbleFinal .asc .right [5, 3, 4, 2, 1]).isComplete = true ∧
        adjOrdered .asc (bubbleFinal .asc .right [5, 3, 4, 2, 1]).array) ∧
      ((insFinal .asc .right [5, 3, 4, 2, 1]).isComplete = true ∧
        adjOrdered .asc (insFinal .asc .right [5, 3, 4, 2, 1]).array) ∧
      ((selFinal .asc .right [5, 3, 4, 2, 1]).isComplete = true ∧
        adjOrdered .asc (selFinal .asc .right [5, 3, 4, 2, 1]).array)) :=
  ⟨by decide, claim1_engines_sort_on_completion .asc .right [5, 3, 4, 2, 1] (by decide)⟩

/-- C8: for every order direction and every starting sequence of length at
least two, each engine driven to completion produces the same final sequence
under Left convergence as under Right convergence. -/
theorem claim8_convergence_symmetry (o : OrderDir) (l : List Int) (hl : 2 ≤ l.length) :
    (bubbleFinal o .left l).array = (bubbleFinal o .right l).array ∧
    (insFinal o .left l).array = (insFinal o .right l).array ∧
    (selFinal o .left l).array = (selFinal o .right l).array := by
  have key : ∀ a b : List Int, FinalSorted o l a → FinalSorted o l b → a = b := by
    intro a b ha hb
    replace ha : fullySorted o a ∧ a.Perm l ∧ a.length = l.length := ha
    replace hb : fullySorted o b ∧ b.Perm l ∧ b.length = l.length := hb
    exact List.eq_of_perm_of_sorted (ha.2.1.trans hb.2.1.symm)
      (sorted_of_fullySorted ha.1) (sorted_of_fullySorted hb.1)
  exact ⟨key _ _ (bubbleFinal_spec o .left l hl).2 (bubbleFinal_spec o .right l hl).2,
    key _ _ (insFinal_spec o .left l hl).2 (insFinal_spec o .right l hl).2,
    key _ _ (selFinal_spec o .left l hl).2 (selFinal_spec o .right l hl).2⟩

/-- Witness for C8: a concrete session over five values. -/
theorem claim8_convergence_symmetry_witness :
    2 ≤ ([5, 3, 4, 2, 1] : List Int).length ∧
    ((bubbleFinal .asc .left [5, 3, 4, 2, 1]).array =
        (bubbleFinal .asc .right [5, 3, 4, 2, 1]).array ∧
      (insFinal .asc .left [5, 3, 4, 2, 1]).array =
        (insFinal .asc .right [5, 3, 4, 2, 1]).array ∧
      (selFinal .asc .left [5, 3, 4, 2, 1]).array =
        (selFinal .asc .right [5, 3, 4, 2, 1]).array) :=
  ⟨by decide, claim8_convergence_symmetry .asc [5, 3, 4, 2, 1] (by decide)⟩

/-- C10: at every state reachable through learner actions, each engine's
sequence keeps the length and the multiset of values of the session's initial
sequence (it is a permutation of it). -/
theorem claim10_reachable_permutation (o : OrderDir) (conv : Conv) (l : List Int)
    (hl : 2 ≤ l.length) :
    (∀ s, BubbleReach o conv l s → s.array.length = l.length ∧ s.array.Perm l) ∧
    (∀ s, InsReach o conv l s → s.array.length = l.length ∧ s.array.Perm l) ∧
    (∀ s, SelReach o conv l s → s.array.length = l.length ∧ s.array.Perm l) := by
  refine ⟨fun s hr => ?_, fun s hr => ?_, fun s hr => ?_⟩
  · have h := bubbleReach_inv hl hr
    exact ⟨h.1, h.2.1⟩
  · have h := insReach_inv hl hr
    exact ⟨h.1, h.2.1⟩
  · have h := selReach_inv hl hr
    exact ⟨h.1, h.2.1⟩

/-- Witness for C10: the state after one accepted swap in a concrete bubble
session still has the initial length and is a permutation of the start
list. -/
theorem claim10_reachable_permutation_witness :
    2 ≤ ([3, 1, 2, 5, 4] : List Int).length ∧
    ((bubbleHandleAction .asc .right (bubbleInit .right [3, 1, 2, 5, 4])
        BubbleAction.swap).1.array.length = ([3, 1, 2, 5, 4] : List Int).length ∧
      (bubbleHandleAction .asc .right (bubbleInit .right [3, 1, 2, 5, 4])
        BubbleAction.swap).1.array.Perm [3, 1, 2, 5, 4]) :=
  ⟨by decide,
    (claim10_reachable_permutation .asc .right [3, 1, 2, 5, 4] (by decide)).1 _
      (BubbleReach.step _ BubbleAction.swap BubbleReach.init)⟩

/-- The left-convergence insertion init satisfies the run invariant. -/
theorem insInitInvL (o : OrderDir) (l : List Int) (hl : 2 ≤ l.length) :
    IInvL o l (insInit .left l) := by
  rw [insInit_left_eq l hl]
  exact
    { len := rfl
      perm := List.Perm.refl l
      hcomp := rfl
      hpick := rfl
      hb := by show 0 + 2 ≤ l.length; omega
      hsorted := by
        intro k1 k2 hlo h12 hk2 hk2l
        replace hk2 : k2 < 0 + 1 := hk2
        have hk1 : k1 = k2 := by omega
        rw [hk1]
        exact leOf_refl o _ }

/-- The right-convergence insertion init satisfies the run invariant. -/
theorem insInitInvR (o : OrderDir) (l : List Int) (hl : 2 ≤ l.length) :
    IInvR o l (insInit .right l) := by
  rw [insInit_right_eq l hl]
  exact
    { len := rfl
      perm := List.Perm.refl l
      hcomp := rfl
      hpick := rfl
      hb1 := by show 1 ≤ l.length - 1; omega
      hb2 := by show l.length - 1 + 1 ≤ l.length; omega
      hsorted := by
        intro k1 k2 hlo h12 hk2 hk2l
        replace hlo : l.length - 1 ≤ k1 := hlo
        have hk1 : k1 = k2 := by omega
        rw [hk1]
        exact leOf_refl o _ }

/-- The left-convergence selection init satisfies the run invariant. -/
theorem selInitInvL (o : OrderDir) (l : List Int) (hl : 2 ≤ l.length) :
    SInvL o l (selInit .left l) := by
  rw [selInit_left_eq l hl]
  exact
    { len := rfl
      perm := List.Perm.refl l
      hcomp := rfl
      hsi := by show 0 + 2 ≤ l.length; omega
      hsorted := by
        intro k1 k2 h12 hk1 hk2
        replace hk1 : k1 < 0 := hk1
        omega }

/-- The right-convergence selection init satisfies the run invariant. -/
theorem selInitInvR (o : OrderDir) (l : List Int) (hl : 2 ≤ l.length) :
    SInvR o l (selInit .right l) := by
  rw [selInit_right_eq l hl]
  exact
    { len := rfl
      perm := List.Perm.refl l
      hcomp := rfl
      hsi1 := by show 1 ≤ l.length - 1; omega
      hsi2 := by show l.length - 1 + 1 ≤ l.length; omega
      hsorted := by
        intro k1 k2 h12 hk2lo hk2
        replace hk2lo : l.length - 1 + 1 ≤ k2 := hk2lo
        replace hk2 : k2 < l.length := hk2
        omega }

/-- C9 counterexample: a bubble session over a sequence of length 1 is not
complete after zero decisions, under either convergence direction — the
bubble engine only evaluates its completion condition inside `nextStep`, so
the claim fails for the bubble engine at length 1. -/
theorem claim9_counterexample_bubble_length_one :
    (bubbleInit .right [5]).isComplete = false ∧
    (bubbleInit .left [5]).isComplete = false :=
  ⟨rfl, rfl⟩

/-- C9 amended: over a sequence of length 1, the insertion and selection
engines complete after zero decisions while the bubble engine does not (its
completion test only runs inside `nextStep`); over a sequence of length 2,
every engine starts incomplete and completes after exactly one correct
decision, under both order directions and both convergence directions. -/
theorem claim9_amended_boundary_sessions (o : OrderDir) (conv : Conv) (a b x : Int) :
    ((insInit conv [x]).isComplete = true ∧
      (selInit conv [x]).isComplete = true ∧
      (bubbleInit conv [x]).isComplete = false) ∧
    ((bubbleInit conv [a, b]).isComplete = false ∧
      (bubbleCorrectStep o conv (bubbleInit conv [a, b])).isComplete = true) ∧
    ((insInit conv [a, b]).isComplete = false ∧
      (insCorrectStep o conv (insInit conv [a, b])).isComplete = true) ∧
    ((selInit conv [a, b]).isComplete = false ∧
      (selCorrectStep o conv (selInit conv [a, b])).isComplete = true) := by
  have hlen : ([a, b] : List Int).length = 2 := rfl
  refine ⟨?_, ⟨?_, ?_⟩, ⟨?_, ?_⟩, ⟨?_, ?_⟩⟩
  · cases conv <;> exact ⟨rfl, rfl, rfl⟩
  · exact rfl
  · cases conv with
    | left =>
      have h := bubbleL_step (bubbleInitInvL o [a, b] (by simp))
      rcases h.2 with ⟨_, hinv⟩ | ⟨hc2, _⟩
      · exfalso
        obtain ⟨_, _, _, hi, hjlo, hjhi, _, _⟩ := hinv
        have hm := h.1
        unfold bubbleMeasL at hm
        rw [hlen] at hi hjhi hm
        have hx : (bubbleCorrectStep o .left (bubbleInit .left [a, b])).i = 0 := by omega
        have hy : (bubbleCorrectStep o .left (bubbleInit .left [a, b])).j = 1 := by omega
        have hii : (bubbleInit Conv.left [a, b]).i = 0 := rfl
        have hjj : (bubbleInit Conv.left [a, b]).j = 1 := rfl
        rw [hx, hy, hii, hjj] at hm
        omega
      · exact hc2
    | right =>
      have h := bubbleR_step (bubbleInitInvR o [a, b] (by simp))
      rcases h.2 with ⟨_, hinv⟩ | ⟨hc2, _⟩
      · exfalso
        obtain ⟨_, _, _, hi, hj, _, _⟩ := hinv
        have hm := h.1
        unfold bubbleMeasR at hm
        rw [hlen] at hi hj hm
        have hx : (bubbleCorrectStep o .right (bubbleInit .right [a, b])).i = 0 := by omega
        have hy : (bubbleCorrectStep o .right (bubbleInit .right [a, b])).j = 0 := by omega
        have hii : (bubbleInit Conv.right [a, b]).i = 0 := rfl
        have hjj : (bubbleInit Conv.right [a, b]).j = 0 := rfl
        rw [hx, hy, hii, hjj] at hm
        omega
      · exact hc2
  · cases conv <;> exact rfl
  · cases conv with
    | left =>
      have h := insL_step (insInitInvL o [a, b] (by simp))
      rcases h.2 with ⟨_, hinv⟩ | ⟨hc2, _⟩
      · exfalso
        obtain ⟨_, _, _, _, hb2, _⟩ := hinv
        have hm := h.1
        unfold insMeasL at hm
        rw [hlen] at hb2 hm
        have hx : (insCorrectStep o .left (insInit .left [a, b])).boundary = 0 := by omega
        have hbi : (insInit Conv.left [a, b]).boundary = 0 := rfl
        rw [hx, hbi] at hm
        omega
      · exact hc2
    | right =>
      have h := insR_step (insInitInvR o [a, b] (by simp))
      rcases h.2 with ⟨_, hinv⟩ | ⟨hc2, _⟩
      · exfalso
        obtain ⟨_, _, _, _, hb1, _, _⟩ := hinv
        have hm := h.1
        unfold insMeasR at hm
        have hbi : (insInit Conv.right [a, b]).boundary = 1 := rfl
        rw [hbi] at hm
        omega
      · exact hc2
  · cases conv <;> exact rfl
  · cases conv with
    | left =>
      have h := selL_step (selInitInvL o [a, b] (by simp))
      rcases h.2 with ⟨_, hinv⟩ | ⟨hc2, _⟩
      · exfalso
        obtain ⟨_, _, _, hsi, _⟩ := hinv
        have hm := h.1
        unfold selMeasL at hm
        rw [hlen] at hsi hm
        have hx : (selCorrectStep o .left (selInit .left [a, b])).sortedIndex = 0 := by omega
        have hsi0 : (selInit Conv.left [a, b]).sortedIndex = 0 := rfl
        rw [hx, hsi0] at hm
        omega
      · exact hc2
    | right =>
      have h := selR_step (selInitInvR o [a, b] (by simp))
      rcases h.2 with ⟨_, hinv⟩ | ⟨hc2, _⟩
      · exfalso
        obtain ⟨_, _, _, hsi1, _, _⟩ := hinv
        have hm := h.1
        unfold selMeasR at hm
        have hsi0 : (selInit Conv.right [a, b]).sortedIndex = 1 := rfl
        rw [hsi0] at hm
        omega
      · exact hc2

/-- C7: at every reachable state of every engine, under both order directions
and both convergence directions, every index held in engine state or used to
address the sequence stays inside `[0, length)`: the bubble cursor pair is an
in-range adjacent pair whenever the session is active, the insertion boundary
and pick index are in range, and every eligible selection click index is in
range. -/
theorem claim7_reachable_index_bounds (o : OrderDir) (conv : Conv) (l : List Int)
    (hl : 2 ≤ l.length) :
    (∀ s, BubbleReach o conv l s →
      s.i < l.length ∧ s.j < l.length ∧
      (s.isComplete = false →
        (bubblePair conv s).1 < l.length ∧ (bubblePair conv s).2 < l.length ∧
        (bubblePair conv s).2 = (bubblePair conv s).1 + 1)) ∧
    (∀ s, InsReach o conv l s →
      s.boundary < l.length ∧
      (s.isComplete = false → insPickIndex conv s < l.length) ∧
      (∀ v ci, s.picked = some (v, ci) → ci < l.length)) ∧
    (∀ s, SelReach o conv l s →
      s.sortedIndex < l.length ∧
      (s.isComplete = false → ∀ idx, selEligible conv s idx → idx < l.length)) := by
  refine ⟨fun s hr => ?_, fun s hr => ?_, fun s hr => ?_⟩
  · obtain ⟨len, perm, hok⟩ := bubbleReach_inv hl hr
    cases conv with
    | left =>
      replace hok : s.i + 1 ≤ l.length ∧ s.j + 1 ≤ l.length ∧
          (s.isComplete = false →
            s.i + 2 ≤ l.length ∧ s.i + 1 ≤ s.j ∧ s.j + 1 ≤ l.length) := hok
      refine ⟨by omega, by omega, fun hact => ?_⟩
      obtain ⟨h1, h2, h3⟩ := hok.2.2 hact
      exact ⟨by show s.j - 1 < l.length; omega, by show s.j < l.length; omega,
        by show s.j = s.j - 1 + 1; omega⟩
    | right =>
      replace hok : s.i + 1 ≤ l.length ∧ s.j + 1 ≤ l.length ∧
          (s.isComplete = false → s.i + 2 ≤ l.length ∧ s.j + s.i + 2 ≤ l.length) := hok
      refine ⟨by omega, by omega, fun hact => ?_⟩
      obtain ⟨h1, h2⟩ := hok.2.2 hact
      exact ⟨by show s.j < l.length; omega, by show s.j + 1 < l.length; omega, rfl⟩
  · obtain ⟨len, perm, hb, hpicked, hactive⟩ := insReach_inv hl hr
    cases conv with
    | left =>
      replace hactive : s.isComplete = false → s.boundary + 2 ≤ l.length := hactive
      refine ⟨by omega, fun hact => ?_, fun v ci hp => ?_⟩
      · have h1 := hactive hact
        show s.boundary + 1 < l.length
        omega
      · have h4 := hpicked
        unfold insPickedOk at h4
        simp only [hp] at h4
        obtain ⟨_, hci, _, hbnd⟩ := h4
        rw [hci]
        show s.boundary + 1 < l.length
        omega
    | right =>
      replace hactive : s.isComplete = false →
          1 ≤ s.boundary ∧ s.boundary + 1 ≤ l.length := hactive
      refine ⟨by omega, fun hact => ?_, fun v ci hp => ?_⟩
      · show s.boundary - 1 < l.length
        omega
      · have h4 := hpicked
        unfold insPickedOk at h4
        simp only [hp] at h4
        obtain ⟨_, hci, _, hbnd⟩ := h4
        rw [hci]
        show s.boundary - 1 < l.length
        omega
  · obtain ⟨len, perm, hsi, hactive⟩ := selReach_inv hl hr
    cases conv with
    | left =>
      refine ⟨by omega, fun hact idx helig => ?_⟩
      replace helig : s.sortedIndex ≤ idx ∧ idx < s.array.length := helig
      rw [← len]
      exact helig.2
    | right =>
      refine ⟨by omega, fun hact idx helig => ?_⟩
      replace helig : idx ≤ s.sortedIndex := helig
      omega

/-- Witness for C7: the selection conjunct at the initial state of a concrete
session. -/
theorem claim7_reachable_index_bounds_witness :
    2 ≤ ([3, 1, 2] : List Int).length ∧
    ((selInit .right [3, 1, 2]).sortedIndex < ([3, 1, 2] : List Int).length ∧
      ((selInit .right [3, 1, 2]).isComplete = false →
        ∀ idx, selEligible .right (selInit .right [3, 1, 2]) idx →
          idx < ([3, 1, 2] : List Int).length)) :=
  ⟨by decide,
    (claim7_reachable_index_bounds .asc .right [3, 1, 2] (by decide)).2.2
      (selInit .right [3, 1, 2]) SelReach.init⟩

/-- C2: on an active bubble state, the computed decision value equals
`leftVal != rightVal && !shouldPrecede leftVal rightVal` for the values at
the active pair, the swap button is accepted exactly when that value is
true, and the no-swap button exactly when it is false, under both order
directions and both convergence directions. -/
theorem claim2_bubble_decision_rule (o : OrderDir) (conv : Conv) (s : BubbleState)
    (hact : s.isComplete = false) :
    bubbleShouldSwap o conv s =
      (!decide (s.array.getD (bubblePair conv s).1 0 = s.array.getD (bubblePair conv s).2 0) &&
        !shouldPrecede o (s.array.getD (bubblePair conv s).1 0)
          (s.array.getD (bubblePair conv s).2 0)) ∧
    ((bubbleHandleAction o conv s .swap).2 = .ok ↔ bubbleShouldSwap o conv s = true) ∧
    ((bubbleHandleAction o conv s .next).2 = .ok ↔ bubbleShouldSwap o conv s = false) := by
  refine ⟨?_, ?_, ?_⟩
  · rw [bubbleShouldSwap_eq]
    by_cases heq : s.array.getD (bubblePair conv s).1 0 = s.array.getD (bubblePair conv s).2 0
    · rw [if_pos heq, decide_eq_true heq]
      simp only [Bool.not_true, Bool.false_and]
    · rw [if_neg heq, decide_eq_false heq]
      simp only [Bool.not_false, Bool.true_and]
  · by_cases hsw : bubbleShouldSwap o conv s = true
    · simp [bubbleHandleAction, hact, hsw]
    · have hsw2 : bubbleShouldSwap o conv s = false := by simpa using hsw
      simp [bubbleHandleAction, hact, hsw2]
  · by_cases hsw : bubbleShouldSwap o conv s = true
    · simp [bubbleHandleAction, hact, hsw]
    · have hsw2 : bubbleShouldSwap o conv s = false := by simpa using hsw
      simp [bubbleHandleAction, hact, hsw2]

/-- A concrete active bubble state used to witness the decision rule. -/
def bubbleDemoState : BubbleState :=
  { array := [5, 3], i := 0, j := 0, isComplete := false }

/-- Witness for C2 at a concrete active state whose pair is out of order. -/
theorem claim2_bubble_decision_rule_witness :
    bubbleDemoState.isComplete = false ∧
    (bubbleShouldSwap .asc .right bubbleDemoState =
      (!decide (bubbleDemoState.array.getD (bubblePair .right bubbleDemoState).1 0 =
          bubbleDemoState.array.getD (bubblePair .right bubbleDemoState).2 0) &&
        !shouldPrecede .asc (bubbleDemoState.array.getD (bubblePair .right bubbleDemoState).1 0)
          (bubbleDemoState.array.getD (bubblePair .right bubbleDemoState).2 0)) ∧
    ((bubbleHandleAction .asc .right bubbleDemoState .swap).2 = .ok ↔
      bubbleShouldSwap .asc .right bubbleDemoState = true) ∧
    ((bubbleHandleAction .asc .right bubbleDemoState .next).2 = .ok ↔
      bubbleShouldSwap .asc .right bubbleDemoState = false)) :=
  ⟨rfl, claim2_bubble_decision_rule .asc .right bubbleDemoState rfl⟩

/-- C3: in the insertion engine's placement phase the computed correct slot is
the first settled position, scanned in increasing index order, whose element
`E` satisfies `shouldPrecede v E` for the picked value `v`; if no settled
element satisfies it, the slot right after the settled region.  This holds
for both convergence directions (settled region `[0, boundary]` on the left,
`[boundary, length)` on the right). -/
theorem claim3_insertion_slot_scan (o : OrderDir) (arr : List Int) (boundary : Nat) (v : Int)
    (hb : boundary ≤ arr.length) :
    ((insCorrectSlot o .left arr boundary v ≤ boundary ∧
        shouldPrecede o v (arr.getD (insCorrectSlot o .left arr boundary v) 0) = true ∧
        ∀ j, j < insCorrectSlot o .left arr boundary v →
          shouldPrecede o v (arr.getD j 0) = false) ∨
      (insCorrectSlot o .left arr boundary v = boundary + 1 ∧
        ∀ j, j ≤ boundary → shouldPrecede o v (arr.getD j 0) = false)) ∧
    ((boundary ≤ insCorrectSlot o .right arr boundary v ∧
        insCorrectSlot o .right arr boundary v < arr.length ∧
        shouldPrecede o v (arr.getD (insCorrectSlot o .right arr boundary v) 0) = true ∧
        ∀ j, boundary ≤ j → j < insCorrectSlot o .right arr boundary v →
          shouldPrecede o v (arr.getD j 0) = false) ∨
      (insCorrectSlot o .right arr boundary v = arr.length ∧
        ∀ j, boundary ≤ j → j < arr.length → shouldPrecede o v (arr.getD j 0) = false)) :=
  ⟨insCorrectSlot_left_char o arr boundary v, insCorrectSlot_right_char o arr boundary v hb⟩

/-- Witness for C3 on a concrete three-element array with the pick in the
middle of the settled values. -/
theorem claim3_insertion_slot_scan_witness :
    (1 : Nat) ≤ ([1, 3, 2] : List Int).length ∧
    (((insCorrectSlot .asc .left [1, 3, 2] 1 2 ≤ 1 ∧
        shouldPrecede .asc 2 (([1, 3, 2] : List Int).getD
          (insCorrectSlot .asc .left [1, 3, 2] 1 2) 0) = true ∧
        ∀ j, j < insCorrectSlot .asc .left [1, 3, 2] 1 2 →
          shouldPrecede .asc 2 (([1, 3, 2] : List Int).getD j 0) = false) ∨
      (insCorrectSlot .asc .left [1, 3, 2] 1 2 = 1 + 1 ∧
        ∀ j, j ≤ 1 → shouldPrecede .asc 2 (([1, 3, 2] : List Int).getD j 0) = false)) ∧
    ((1 ≤ insCorrectSlot .asc .right [1, 3, 2] 1 2 ∧
        insCorrectSlot .asc .right [1, 3, 2] 1 2 < ([1, 3, 2] : List Int).length ∧
        shouldPrecede .asc 2 (([1, 3, 2] : List Int).getD
          (insCorrectSlot .asc .right [1, 3, 2] 1 2) 0) = true ∧
        ∀ j, 1 ≤ j → j < insCorrectSlot .asc .right [1, 3, 2] 1 2 →
          shouldPrecede .asc 2 (([1, 3, 2] : List Int).getD j 0) = false) ∨
      (insCorrectSlot .asc .right [1, 3, 2] 1 2 = ([1, 3, 2] : List Int).length ∧
        ∀ j, 1 ≤ j → j < ([1, 3, 2] : List Int).length →
          shouldPrecede .asc 2 (([1, 3, 2] : List Int).getD j 0) = false))) :=
  ⟨by decide, claim3_insertion_slot_scan .asc [1, 3, 2] 1 2 (by decide)⟩

/-- C5: placing the picked card at the computed correct slot is accepted, and
the engine re-reads the value at the pick's original index, splices it out
there, reinserts it at the proposed slot — one less when the slot lies past
the original index, to correct for the removal shift — and advances the
boundary one step in the convergence direction before re-running the
completion test. -/
theorem claim5_insertion_splice (o : OrderDir) (conv : Conv) (s : InsState) (v : Int) (ci : Nat)
    (hp : s.picked = some (v, ci)) :
    (insPlace o conv s (insCorrectSlot o conv s.array s.boundary v)).2 = .ok ∧
    (insPlace o conv s (insCorrectSlot o conv s.array s.boundary v)).1 =
      insCheckComplete conv
        { s with
          array := (s.array.eraseIdx ci).insertIdx
            (if insCorrectSlot o conv s.array s.boundary v > ci then
              insCorrectSlot o conv s.array s.boundary v - 1
             else insCorrectSlot o conv s.array s.boundary v)
            (s.array.getD ci 0)
          boundary := match conv with
            | .left => s.boundary + 1
            | .right => s.boundary - 1
          picked := none } := by
  constructor
  · unfold insPlace
    simp only [hp]
    rw [if_pos trivial]
  · unfold insPlace
    simp only [hp]
    rw [if_pos trivial]

/-- A concrete mid-pick insertion state used to witness the splice rule. -/
def insDemoState : InsState :=
  { array := [2, 1, 3], boundary := 0, picked := some (1, 1), isComplete := false }

/-- Witness for C5 at a concrete state with the pick in flight. -/
theorem claim5_insertion_splice_witness :
    insDemoState.picked = some (1, 1) ∧
    ((insPlace .asc .left insDemoState
        (insCorrectSlot .asc .left insDemoState.array insDemoState.boundary 1)).2 = .ok ∧
      (insPlace .asc .left insDemoState
        (insCorrectSlot .asc .left insDemoState.array insDemoState.boundary 1)).1 =
        insCheckComplete .left
          { insDemoState with
            array := (insDemoState.array.eraseIdx 1).insertIdx
              (if insCorrectSlot .asc .left insDemoState.array insDemoState.boundary 1 > 1 then
                insCorrectSlot .asc .left insDemoState.array insDemoState.boundary 1 - 1
               else insCorrectSlot .asc .left insDemoState.array insDemoState.boundary 1)
              (insDemoState.array.getD 1 0)
            boundary := insDemoState.boundary + 1
            picked := none }) :=
  ⟨rfl, claim5_insertion_splice .asc .left insDemoState 1 1 rfl⟩

/-- C6: for every engine and every state, a rejected learner action (wrong
swap/skip choice, wrong insertion slot, or non-extremal selection click)
leaves the state — sequence and all progress fields — unchanged, and
submitting the same action again returns the identical state and error. -/
theorem claim6_rejection_no_mutation (o : OrderDir) (conv : Conv) (sb : BubbleState)
    (si : InsState) (ss : SelState) :
    (∀ a, (bubbleHandleAction o conv sb a).2.isErr = true →
      (bubbleHandleAction o conv sb a).1 = sb ∧
      bubbleHandleAction o conv (bubbleHandleAction o conv sb a).1 a =
        bubbleHandleAction o conv sb a) ∧
    (∀ slot, (insPlace o conv si slot).2.isErr = true →
      (insPlace o conv si slot).1 = si ∧
      insPlace o conv (insPlace o conv si slot).1 slot = insPlace o conv si slot) ∧
    (∀ idx, (selHandle o conv ss idx).2.isErr = true →
      (selHandle o conv ss idx).1 = ss ∧
      selHandle o conv (selHandle o conv ss idx).1 idx = selHandle o conv ss idx) := by
  refine ⟨fun a herr => ?_, fun slot herr => ?_, fun idx herr => ?_⟩
  · have hstate : (bubbleHandleAction o conv sb a).1 = sb := by
      by_cases hc : sb.isComplete = true
      · simp [bubbleHandleAction, hc]
      · have hc2 : sb.isComplete = false := by simpa using hc
        cases a with
        | swap =>
          by_cases hsw : bubbleShouldSwap o conv sb = true
          · exfalso
            simp [bubbleHandleAction, Outcome.isErr, hc2, hsw] at herr
          · have hsw2 : bubbleShouldSwap o conv sb = false := by simpa using hsw
            simp [bubbleHandleAction, hc2, hsw2]
        | next =>
          by_cases hsw : bubbleShouldSwap o conv sb = true
          · simp [bubbleHandleAction, hc2, hsw]
          · have hsw2 : bubbleShouldSwap o conv sb = false := by simpa using hsw
            exfalso
            simp [bubbleHandleAction, Outcome.isErr, hc2, hsw2] at herr
    exact ⟨hstate, by rw [hstate]⟩
  · have hstate : (insPlace o conv si slot).1 = si := by
      rcases hp : si.picked with _ | ⟨v, ci⟩
      · unfold insPlace
        simp [hp]
      · by_cases hs : slot = insCorrectSlot o conv si.array si.boundary v
        · exfalso
          unfold insPlace at herr
          simp [Outcome.isErr, hp, hs] at herr
        · unfold insPlace
          simp [hp, hs]
    exact ⟨hstate, by rw [hstate]⟩
  · have hstate : (selHandle o conv ss idx).1 = ss := by
      by_cases hacc : idx = (selCorrect o conv ss.array ss.sortedIndex).1 ∨
          ss.array.getD idx 0 = (selCorrect o conv ss.array ss.sortedIndex).2
      · exfalso
        simp only [selHandle] at herr
        rw [if_pos hacc] at herr
        simp [Outcome.isErr] at herr
      · rw [selHandle_reject hacc]
    exact ⟨hstate, by rw [hstate]⟩

/-- Witness for C6: skipping a pair that must be swapped is rejected and
idempotent. -/
theorem claim6_rejection_no_mutation_witness :
    (bubbleHandleAction .asc .right bubbleDemoState BubbleAction.next).2.isErr = true ∧
    ((bubbleHandleAction .asc .right bubbleDemoState BubbleAction.next).1 = bubbleDemoState ∧
      bubbleHandleAction .asc .right
          (bubbleHandleAction .asc .right bubbleDemoState BubbleAction.next).1
          BubbleAction.next =
        bubbleHandleAction .asc .right bubbleDemoState BubbleAction.next) :=
  ⟨rfl,
    (claim6_rejection_no_mutation .asc .right bubbleDemoState insDemoState
      (SelState.mk [1] 0 false)).1 BubbleAction.next rfl⟩

/-- C4: a selection click on an eligible index is accepted exactly when the
value there equals the computed extremal value — so any index holding that
value is accepted, not only the canonical scan position; the computed value
is extremal over the unsettled range (it precedes, or equals, every element
there under left convergence, and every element there precedes or equals it
under right convergence); and an accepted click swaps the clicked element
with the one at `sortedIndex` and moves `sortedIndex` one step in the
convergence direction before re-running the completion test. -/
theorem claim4_selection_acceptance (o : OrderDir) (conv : Conv) (s : SelState) (idx : Nat)
    (hsi : s.sortedIndex < s.array.length) (helig : selEligible conv s idx) :
    ((selHandle o conv s idx).2 = .ok ↔
      s.array.getD idx 0 = (selCorrect o conv s.array s.sortedIndex).2) ∧
    (match conv with
      | .left => ∀ k, s.sortedIndex ≤ k → k < s.array.length →
          (selCorrect o conv s.array s.sortedIndex).2 = s.array.getD k 0 ∨
          shouldPrecede o (selCorrect o conv s.array s.sortedIndex).2
            (s.array.getD k 0) = true
      | .right => ∀ k, k ≤ s.sortedIndex →
          s.array.getD k 0 = (selCorrect o conv s.array s.sortedIndex).2 ∨
          shouldPrecede o (s.array.getD k 0)
            (selCorrect o conv s.array s.sortedIndex).2 = true) ∧
    (s.array.getD idx 0 = (selCorrect o conv s.array s.sortedIndex).2 →
      selHandle o conv s idx =
        (selCheckComplete conv
          { s with
            array := swapPair s.array s.sortedIndex idx
            sortedIndex := match conv with
              | .left => s.sortedIndex + 1
              | .right => s.sortedIndex - 1 }, .ok)) := by
  have hval : (selCorrect o conv s.array s.sortedIndex).2 =
      s.array.getD (selCorrect o conv s.array s.sortedIndex).1 0 := by
    cases conv
    · exact (selCorrect_left_spec o s.array s.sortedIndex hsi).1
    · exact (selCorrect_right_spec o s.array s.sortedIndex).1
  refine ⟨?_, ?_, ?_⟩
  · constructor
    · intro hok
      by_cases hacc : idx = (selCorrect o conv s.array s.sortedIndex).1 ∨
          s.array.getD idx 0 = (selCorrect o conv s.array s.sortedIndex).2
      · rcases hacc with hacc | hacc
        · rw [hacc, ← hval]
        · exact hacc
      · rw [selHandle_reject hacc] at hok
        exact absurd hok (by simp)
    · intro hv
      cases conv
      · rw [selHandle_accept_left (Or.inr hv)]
      · rw [selHandle_accept_right (Or.inr hv)]
  · cases conv with
    | left =>
      intro k hk1 hk2
      have h := (selCorrect_left_spec o s.array s.sortedIndex hsi).2.2.2 k hk1 hk2
      by_cases heq : (selCorrect o .left s.array s.sortedIndex).2 = s.array.getD k 0
      · exact Or.inl heq
      · exact Or.inr (precede_of_le_ne h heq)
    | right =>
      intro k hk1
      have h := (selCorrect_right_spec o s.array s.sortedIndex).2.2 k hk1
      by_cases heq : s.array.getD k 0 = (selCorrect o .right s.array s.sortedIndex).2
      · exact Or.inl heq
      · exact Or.inr (precede_of_le_ne h heq)
  · intro hv
    cases conv
    · exact selHandle_accept_left (Or.inr hv)
    · exact selHandle_accept_right (Or.inr hv)

/-- Witness for C4: in `[4, 1, 3]` with the boundary at 0, clicking index 1
(the minimum) is accepted, the extremal property holds, and the swap and
advance take effect. -/
theorem claim4_selection_acceptance_witness :
    ((SelState.mk [4, 1, 3] 0 false).sortedIndex <
        (SelState.mk [4, 1, 3] 0 false).array.length ∧
      selEligible .left (SelState.mk [4, 1, 3] 0 false) 1) ∧
    (((selHandle .asc .left (SelState.mk [4, 1, 3] 0 false) 1).2 = .ok ↔
      (SelState.mk [4, 1, 3] 0 false).array.getD 1 0 =
        (selCorrect .asc .left (SelState.mk [4, 1, 3] 0 false).array
          (SelState.mk [4, 1, 3] 0 false).sortedIndex).2) ∧
    (∀ k, (SelState.mk [4, 1, 3] 0 false).sortedIndex ≤ k →
        k < (SelState.mk [4, 1, 3] 0 false).array.length →
        (selCorrect .asc .left (SelState.mk [4, 1, 3] 0 false).array
          (SelState.mk [4, 1, 3] 0 false).sortedIndex).2 =
          (SelState.mk [4, 1, 3] 0 false).array.getD k 0 ∨
        shouldPrecede .asc
          (selCorrect .asc .left (SelState.mk [4, 1, 3] 0 false).array
            (SelState.mk [4, 1, 3] 0 false).sortedIndex).2
          ((SelState.mk [4, 1, 3] 0 false).array.getD k 0) = true) ∧
    ((SelState.mk [4, 1, 3] 0 false).array.getD 1 0 =
        (selCorrect .asc .left (SelState.mk [4, 1, 3] 0 false).array
          (SelState.mk [4, 1, 3] 0 false).sortedIndex).2 →
      selHandle .asc .left (SelState.mk [4, 1, 3] 0 false) 1 =
        (selCheckComplete .left
          { SelState.mk [4, 1, 3] 0 false with
            array := swapPair (SelState.mk [4, 1, 3] 0 false).array
              (SelState.mk [4, 1, 3] 0 false).sortedIndex 1
            sortedIndex := (SelState.mk [4, 1, 3] 0 false).sortedIndex + 1 }, .ok))) :=
  ⟨⟨by decide, by exact ⟨by decide, by decide⟩⟩,
    claim4_selection_acceptance .asc .left (SelState.mk [4, 1, 3] 0 false) 1 (by decide)
      ⟨by decide, by decide⟩⟩
